import Mathlib

/-!
Verification of the RAMEN message-passing core (single header ramen.hpp).

The intrusive doubly-linked list (detail::ListNode) is modelled as a state
mapping node identifiers (Nat) to their two neighbor links (prev_, next_,
each a nullable pointer modelled as Option Nat).  The while-loops of the
source (head, tail, clusterize, Event::operator()) are modelled with an
explicit fuel parameter; all theorems hypothesise enough fuel, and the
results are shown independent of any extra fuel.

The type-erased bounded callable (ramen::Function) is modelled separately.
-/

set_option maxHeartbeats 1000000

namespace Ramen

/-- Model of the two pointer fields of detail::ListNode: prev_ and next_,
each either null (none) or the identifier of another node. -/
structure Node where
  prev : Option Nat
  next : Option Nat
deriving DecidableEq, Repr

/-- Pointer state: every node identifier has a prev_/next_ pair.
Nodes start unlinked (both null), matching the member initializers
of detail::ListNode. -/
abbrev St := Nat → Node

/-- Write a whole node. -/
def setNode (s : St) (i : Nat) (nd : Node) : St :=
  fun j => if j = i then nd else s j

/-- Model of the assignment p->next_ = v. -/
def setNext (s : St) (i : Nat) (v : Option Nat) : St :=
  setNode s i ⟨(s i).prev, v⟩

/-- Model of the assignment p->prev_ = v. -/
def setPrev (s : St) (i : Nat) (v : Option Nat) : St :=
  setNode s i ⟨v, (s i).next⟩

/-- Model of ListNode::linked(): (prev_ != nullptr) || (next_ != nullptr). -/
def linked (s : St) (n : Nat) : Bool :=
  (s n).prev.isSome || (s n).next.isSome

/-- Model of ListNode::head(): follow prev_ until null.  The source uses an
unbounded while loop; the model takes fuel, which all theorems instantiate
with any bound at least the length of the prefix of the chain. -/
def headP (s : St) : Nat → Nat → Nat
  | 0, n => n
  | fuel + 1, n =>
    match (s n).prev with
    | none => n
    | some p => headP s fuel p

/-- Model of ListNode::tail(): follow next_ until null. -/
def tailP (s : St) : Nat → Nat → Nat
  | 0, n => n
  | fuel + 1, n =>
    match (s n).next with
    | none => n
    | some q => tailP s fuel q

/-- Model of ListNode::remove():
if (prev_) prev_->next_ = next_; if (next_) next_->prev_ = prev_;
prev_ = nullptr; next_ = nullptr.
The second statement reads the fields through the state produced by the
first one, exactly as the source reads its own fields after the first
conditional store. -/
def removeN (s : St) (n : Nat) : St :=
  let s1 := match (s n).prev with
            | some p => setNext s p ((s n).next)
            | none => s
  let s2 := match (s1 n).next with
            | some q => setPrev s1 q ((s1 n).prev)
            | none => s1
  setNode s2 n ⟨none, none⟩

/-- Model of ListNode::merge(ListNode* that):
if (that != nullptr && that != this), compute that->head() and this->head();
if the two heads differ, link this->tail()->next_ = that_head and
that_head->prev_ = this_tail. -/
def merge (s : St) (fuel : Nat) (a : Nat) (that : Option Nat) : St :=
  match that with
  | none => s
  | some b =>
    if b = a then s
    else
      let thatHead := headP s fuel b
      let thisHead := headP s fuel a
      if thisHead = thatHead then s
      else
        let thisTail := tailP s fuel a
        let s1 := setNext s thisTail (some thatHead)
        setPrev s1 thatHead (some thisTail)

/-- Model of the per-cluster append inside ListNode::clusterize:
a cluster is a pair (first, second) of pointers, none when first == nullptr.
If the cluster is empty, first = second = current; otherwise
second->next_ = current; current->prev_ = second; second = current. -/
def appendCluster (s : St) (cl : Option (Nat × Nat)) (cur : Nat) :
    St × (Nat × Nat) :=
  match cl with
  | none => (s, (cur, cur))
  | some fl =>
    let s1 := setNext s fl.2 (some cur)
    let s2 := setPrev s1 cur (some fl.2)
    (s2, (fl.1, cur))

/-- Model of the first while loop of ListNode::clusterize: walk the list from
the head; for each node, save p = p->next_, detach the node, compute its
cluster index with the key function, and append it to that cluster.
The assertion cluster_index < N is a precondition of every theorem; past a
violated assertion the source behaviour is undefined, and the model leaves
the cluster array unchanged there (List.set out of range is a no-op). -/
def clusterizeLoop (key : Nat → Nat) (N : Nat) :
    Nat → St → Option Nat → List (Option (Nat × Nat)) →
    St × List (Option (Nat × Nat))
  | 0, s, _, cls => (s, cls)
  | _ + 1, s, none, cls => (s, cls)
  | fuel + 1, s, some cur, cls =>
    let pNext := (s cur).next
    let s1 := removeN s cur
    let k := key cur
    let r := appendCluster s1 (cls.getD k none) cur
    clusterizeLoop key N fuel r.1 pNext (cls.set k (some r.2))

/-- Model of the second loop of ListNode::clusterize: concatenate the
non-empty clusters in index order, tracking the global (head, tail) pair;
for each non-empty cluster, if the global list is empty adopt the cluster,
otherwise global_tail->next_ = c.first; c.first->prev_ = global_tail. -/
def concatClusters (s : St) (acc : Option (Nat × Nat)) :
    List (Option (Nat × Nat)) → St × Option (Nat × Nat)
  | [] => (s, acc)
  | none :: rest => concatClusters s acc rest
  | some fl :: rest =>
    match acc with
    | none => concatClusters s (some fl) rest
    | some g =>
      let s1 := setNext s g.2 (some fl.1)
      let s2 := setPrev s1 fl.1 (some g.2)
      concatClusters s2 (some (g.1, fl.2)) rest

/-- Model of ListNode::clusterize<N>(key_func): start from this->head(),
distribute every node of the list into N clusters, then relink the
clusters in index order. -/
def clusterize (s : St) (fuel : Nat) (n : Nat) (key : Nat → Nat)
    (N : Nat) : St :=
  let h := headP s fuel n
  let r := clusterizeLoop key N fuel s (some h) (List.replicate N none)
  (concatClusters r.1 none r.2).1

/-- Model of the ListNode move constructor:
prev_ = that.prev_; next_ = that.next_;
if (prev_) prev_->next_ = this; if (next_) next_->prev_ = this;
that.prev_ = nullptr; that.next_ = nullptr.
src is the moved-from node, dst the newly constructed one. -/
def moveNode (s : St) (src dst : Nat) : St :=
  let p := (s src).prev
  let q := (s src).next
  let s1 := setNode s dst ⟨p, q⟩
  let s2 := match p with | some pp => setNext s1 pp (some dst) | none => s1
  let s3 := match q with | some qq => setPrev s2 qq (some dst) | none => s2
  setNode s3 src ⟨none, none⟩

/-- The two final key() overrides of the Triggerable hierarchy:
Event::key() returns 0, Behavior::key() returns 1. -/
inductive PortKind where
  | event
  | behavior
deriving DecidableEq, Repr

/-- Model of Triggerable::key() as fixed by the two final overrides. -/
def kindKey : PortKind → Nat
  | .event => 0
  | .behavior => 1

/-- Model of Event::operator>>(that):
this->merge(&that); then clusterize<2> on this->head() with
key_func = x.key(). -/
def link (s : St) (fuel : Nat) (a b : Nat) (key : Nat → Nat) : St :=
  let s1 := merge s fuel a (some b)
  clusterize s1 fuel (headP s1 fuel a) key 2

/-- The trace of the walk p = this->next(); while (p) ... p = p->next().
Returns the visited nodes in visit order. -/
def nextTrace (s : St) : Nat → Option Nat → List Nat
  | _, none => []
  | 0, some _ => []
  | fuel + 1, some p => p :: nextTrace s fuel ((s p).next)

/-- Model of the iteration of Event::operator(): the list of nodes visited,
starting just after the Event node itself. -/
def fireTrace (s : St) (fuel : Nat) (ev : Nat) : List Nat :=
  nextTrace s fuel ((s ev).next)

/-- Model of the body of Event::operator(): each visited node receives one
trigger(args...) call with the arguments of the firing, unchanged. -/
def broadcastCalls {α : Type} (s : St) (fuel : Nat) (ev : Nat) (args : α) :
    List (Nat × α) :=
  (fireTrace s fuel ev).map (fun n => (n, args))

/-- Model of Event::trigger(A...): an empty body, the Event node itself
does nothing when triggered. -/
def eventTrigger {α : Type} (_ : α) : Unit := ()

/-- Model of one trigger(value&) call in a pull topic: an Event node leaves
the out-parameter unchanged (its trigger is a no-op); a Behavior node runs
its stored callable on the out-parameter. -/
def triggerEff {α : Type} (kind : Nat → PortKind) (bf : Nat → α → α)
    (n : Nat) (x : α) : α :=
  match kind n with
  | .event => x
  | .behavior => bf n x

/-- Model of firing Puller::operator()(value&): the walk of
Event::operator() threading the single out-parameter through every
trigger call. -/
def pullRun {α : Type} (s : St) (fuel : Nat) (ev : Nat)
    (kind : Nat → PortKind) (bf : Nat → α → α) (x : α) : α :=
  (fireTrace s fuel ev).foldl (fun acc n => triggerEff kind bf n acc) x

/-- Model of Puller::operator*(): T_param out as value-initialised (the
d argument), then this->operator()(out), then return out. -/
def materialize {α : Type} (s : St) (fuel : Nat) (ev : Nat)
    (kind : Nat → PortKind) (bf : Nat → α → α) (d : α) : α :=
  pullRun s fuel ev kind bf d

/-- Doubly-linked segment: the nodes of c occur consecutively in the state,
the first node's prev_ is pr, the last node's next_ is nx, and each
interior pair is linked both ways. -/
def dlseg (s : St) : Option Nat → List Nat → Option Nat → Prop
  | _, [], _ => True
  | pr, [n], nx => (s n).prev = pr ∧ (s n).next = nx
  | pr, n :: m :: rest, nx =>
    (s n).prev = pr ∧ (s n).next = some m ∧ dlseg s (some n) (m :: rest) nx

instance dlsegDecidable (s : St) :
    ∀ (pr : Option Nat) (c : List Nat) (nx : Option Nat),
      Decidable (dlseg s pr c nx)
  | _, [], _ => isTrue trivial
  | _, [_], _ => inferInstanceAs (Decidable (_ ∧ _))
  | _, n :: m :: rest, nx =>
    have : Decidable (dlseg s (some n) (m :: rest) nx) :=
      dlsegDecidable s (some n) (m :: rest) nx
    inferInstanceAs (Decidable (_ ∧ _ ∧ _))

/-- A state realizes a chain decomposition when the chains are disjoint and
nonempty and each is a full doubly-linked list (null-terminated on both
sides).  Nodes outside the decomposition are unconstrained. -/
def Realizes (s : St) (cs : List (List Nat)) : Prop :=
  cs.flatten.Nodup ∧ (∀ c ∈ cs, c ≠ []) ∧ (∀ c ∈ cs, dlseg s none c none)

theorem realizes_perm {s : St} {cs cs' : List (List Nat)}
    (hp : cs.Perm cs') (h : Realizes s cs) : Realizes s cs' := by
  obtain ⟨h1, h2, h3⟩ := h
  exact ⟨(hp.flatten.nodup_iff).mp h1,
    fun c hc => h2 c (hp.mem_iff.mpr hc),
    fun c hc => h3 c (hp.mem_iff.mpr hc)⟩

@[simp] theorem dlseg_nil {s : St} {pr nx : Option Nat} :
    dlseg s pr [] nx := trivial

theorem dlseg_cons {s : St} {pr nx : Option Nat} {n : Nat} {l : List Nat} :
    dlseg s pr (n :: l) nx ↔
      (s n).prev = pr ∧
      (s n).next = (match l with | [] => nx | m :: _ => some m) ∧
      dlseg s (some n) l nx := by
  cases l with
  | nil => simp [dlseg]
  | cons m rest => exact Iff.rfl

theorem dlseg_mono {s s' : St} {c : List Nat}
    (h : ∀ m ∈ c, s' m = s m) :
    ∀ {pr nx : Option Nat}, dlseg s pr c nx → dlseg s' pr c nx := by
  induction c with
  | nil => intro _ _ _; exact trivial
  | cons n l ih =>
    intro pr nx hd
    rw [dlseg_cons] at hd ⊢
    rw [h n (List.mem_cons_self n l)]
    exact ⟨hd.1, hd.2.1, ih (fun m hm => h m (List.mem_cons_of_mem n hm)) hd.2.2⟩

theorem getLast?_cons_eq (n : Nat) (v : List Nat) :
    (n :: v).getLast? = some (v.getLastD n) := by
  induction v generalizing n with
  | nil => rfl
  | cons m rest ih => rw [List.getLast?_cons_cons, ih, List.getLastD_cons]

theorem getLastD_mem (n : Nat) (v : List Nat) : v.getLastD n ∈ n :: v := by
  induction v generalizing n with
  | nil => simp [List.getLastD]
  | cons m rest ih =>
    rw [List.getLastD_cons]
    rcases List.mem_cons.mp (ih m) with he | hm
    · rw [he]; exact List.mem_cons_of_mem n (List.mem_cons_self m rest)
    · exact List.mem_cons_of_mem n (List.mem_cons_of_mem m hm)

theorem getLast?_append_cons_eq (u : List Nat) (n : Nat) (v : List Nat) :
    (u ++ n :: v).getLast? = some (v.getLastD n) := by
  rw [List.getLast?_append_cons, getLast?_cons_eq]

theorem dlseg_append {s : St} {pr nx : Option Nat}
    {xs : List Nat} {tl : Nat} (hlast : xs.getLast? = some tl)
    (y : Nat) (ys : List Nat) :
    dlseg s pr (xs ++ y :: ys) nx ↔
      dlseg s pr xs (some y) ∧ dlseg s (some tl) (y :: ys) nx := by
  induction xs generalizing pr with
  | nil => simp at hlast
  | cons x xs' ih =>
    cases xs' with
    | nil =>
      have htl : tl = x := by
        rw [getLast?_cons_eq] at hlast
        simpa [List.getLastD] using hlast.symm
      subst htl
      simp only [List.cons_append, List.nil_append]
      rw [dlseg_cons (l := y :: ys), dlseg_cons (l := ([] : List Nat))]
      simp [and_assoc]
    | cons x2 xs'' =>
      have hlast2 : (x2 :: xs'').getLast? = some tl := by
        rw [← List.getLast?_cons_cons (a := x)]
        exact hlast
      rw [List.cons_append, dlseg_cons, ih hlast2,
        dlseg_cons (l := x2 :: xs'')]
      constructor
      · rintro ⟨ha, hb, hc, hd⟩
        exact ⟨⟨ha, by simpa using hb, hc⟩, hd⟩
      · rintro ⟨⟨ha, hb, hc⟩, hd⟩
        exact ⟨ha, by simpa using hb, hc, hd⟩

@[simp] theorem setNode_same {s : St} {i : Nat} {nd : Node} :
    setNode s i nd i = nd := by simp [setNode]

theorem setNode_other {s : St} {i j : Nat} {nd : Node} (h : j ≠ i) :
    setNode s i nd j = s j := by simp [setNode, h]

theorem setNext_same {s : St} {i : Nat} {v : Option Nat} :
    setNext s i v i = ⟨(s i).prev, v⟩ := by simp [setNext]

theorem setNext_other {s : St} {i j : Nat} {v : Option Nat} (h : j ≠ i) :
    setNext s i v j = s j := by simp [setNext, setNode, h]

theorem setPrev_same {s : St} {i : Nat} {v : Option Nat} :
    setPrev s i v i = ⟨v, (s i).next⟩ := by simp [setPrev]

theorem setPrev_other {s : St} {i j : Nat} {v : Option Nat} (h : j ≠ i) :
    setPrev s i v j = s j := by simp [setPrev, setNode, h]

/-- Rewriting the next_ pointer of the last node of a segment moves its
right boundary; the rest of the segment is untouched. -/
theorem dlseg_set_last_next {s : St} {pr nx nx' : Option Nat}
    {c : List Nat} {tl : Nat} (hlast : c.getLast? = some tl)
    (hnd : c.Nodup) (h : dlseg s pr c nx) :
    dlseg (setNext s tl nx') pr c nx' := by
  induction c generalizing pr with
  | nil => simp at hlast
  | cons n l ih =>
    cases l with
    | nil =>
      have htl : tl = n := by
        rw [getLast?_cons_eq] at hlast
        simpa [List.getLastD] using hlast.symm
      subst htl
      rw [dlseg_cons] at h ⊢
      refine ⟨?_, ?_, trivial⟩
      · rw [setNext_same]; exact h.1
      · rw [setNext_same]
    | cons m rest =>
      have hlast2 : (m :: rest).getLast? = some tl := by
        rw [← List.getLast?_cons_cons (a := n)]
        exact hlast
      have htl_mem : tl ∈ m :: rest := by
        rw [getLast?_cons_eq] at hlast2
        exact (Option.some.inj hlast2) ▸ getLastD_mem m rest
      rw [dlseg_cons] at h ⊢
      have hnlast : n ≠ tl :=
        ne_of_mem_of_not_mem htl_mem (List.nodup_cons.mp hnd).1 |>.symm
      rw [setNext_other hnlast]
      exact ⟨h.1, h.2.1, ih hlast2 (List.nodup_cons.mp hnd).2 h.2.2⟩

/-- Rewriting the prev_ pointer of the first node of a segment moves its
left boundary; the rest of the segment is untouched. -/
theorem dlseg_set_head_prev {s : St} {pr pr' nx : Option Nat}
    {n : Nat} {l : List Nat} (hnl : n ∉ l)
    (h : dlseg s pr (n :: l) nx) :
    dlseg (setPrev s n pr') pr' (n :: l) nx := by
  rw [dlseg_cons] at h ⊢
  refine ⟨?_, ?_, ?_⟩
  · rw [setPrev_same]
  · rw [setPrev_same]; exact h.2.1
  · refine dlseg_mono (fun m hm => ?_) h.2.2
    have hmn : m ≠ n := fun he => hnl (he ▸ hm)
    exact setPrev_other hmn

/-- Walking next_ from the first element of a null-terminated segment
visits exactly the segment, given enough fuel. -/
theorem nextTrace_eq {s : St} {c : List Nat} :
    ∀ {pr : Option Nat} {fuel : Nat}, dlseg s pr c none →
      c.length ≤ fuel → nextTrace s fuel c.head? = c := by
  induction c with
  | nil => intro pr fuel _ _; cases fuel <;> rfl
  | cons n l ih =>
    intro pr fuel h hf
    rw [dlseg_cons] at h
    cases fuel with
    | zero => simp at hf
    | succ f =>
      have hnext : (s n).next = l.head? := by
        cases l with
        | nil => exact h.2.1
        | cons m rest => exact h.2.1
      simp only [List.head?_cons, nextTrace, hnext]
      rw [ih h.2.2 (by simpa using hf)]

/-- The prev_ pointer of a node in a chain is the element just before it. -/
theorem dlseg_prev_at {s : St} {u : List Nat} {n : Nat} {v : List Nat}
    (h : dlseg s none (u ++ n :: v) none) :
    (s n).prev = u.getLast? := by
  rcases u with _ | ⟨x, xs⟩
  · rw [List.nil_append] at h
    exact (dlseg_cons.mp h).1
  · have hlast : (x :: xs).getLast? = some (xs.getLastD x) := getLast?_cons_eq x xs
    rw [dlseg_append hlast n v] at h
    rw [hlast]
    exact (dlseg_cons.mp h.2).1

/-- The next_ pointer of a node in a chain is the element just after it. -/
theorem dlseg_next_at {s : St} {u : List Nat} {n : Nat} {v : List Nat}
    (h : dlseg s none (u ++ n :: v) none) :
    (s n).next = v.head? := by
  have h2 : dlseg s ((s n).prev) (n :: v) none := by
    rcases u with _ | ⟨x, xs⟩
    · rw [List.nil_append] at h
      have h1 := (dlseg_cons.mp h).1
      rw [h1]
      exact h
    · have hlast : (x :: xs).getLast? = some (xs.getLastD x) := getLast?_cons_eq x xs
      rw [dlseg_append hlast n v] at h
      have := (dlseg_cons.mp h.2).1
      rw [this]
      exact h.2
  rw [dlseg_cons] at h2
  cases v with
  | nil => exact h2.2.1
  | cons m rest => exact h2.2.1

/-- headP from a node reaches the first element of its chain, given fuel at
least the length of the prefix before the node. -/
theorem headP_eq {s : St} :
    ∀ (u : List Nat) (n : Nat) (v : List Nat) (fuel : Nat),
      dlseg s none (u ++ n :: v) none →
      u.length ≤ fuel → headP s fuel n = (u ++ n :: v).headI := by
  intro u
  induction u using List.reverseRecOn with
  | nil =>
    intro n v fuel h _
    rw [List.nil_append] at h ⊢
    have hprev : (s n).prev = none := (dlseg_cons.mp h).1
    cases fuel with
    | zero => simp [headP, List.headI]
    | succ f => simp [headP, hprev, List.headI]
  | append_singleton u' m ih =>
    intro n v fuel h hf
    have hassoc : (u' ++ [m]) ++ n :: v = u' ++ m :: (n :: v) := by simp
    have hprev : (s n).prev = some m := by
      have := dlseg_prev_at (u := u' ++ [m]) h
      simpa using this
    have h' : dlseg s none (u' ++ m :: (n :: v)) none := by rw [← hassoc]; exact h
    cases fuel with
    | zero => simp at hf
    | succ f =>
      simp only [headP, hprev]
      have hlen : u'.length ≤ f := by
        simp only [List.length_append, List.length_singleton] at hf
        omega
      rw [ih m (n :: v) f h' hlen, hassoc]

/-- tailP from a node reaches the last element of its chain, given fuel at
least the length of the suffix after the node. -/
theorem tailP_eq {s : St} :
    ∀ (v u : List Nat) (n fuel : Nat), dlseg s none (u ++ n :: v) none →
      v.length ≤ fuel → tailP s fuel n = v.getLastD n := by
  intro v
  induction v with
  | nil =>
    intro u n fuel h _
    have hnext : (s n).next = none := dlseg_next_at h
    cases fuel with
    | zero => rfl
    | succ f => simp [tailP, hnext, List.getLastD]
  | cons m v' ih =>
    intro u n fuel h hf
    have hnext : (s n).next = some m := dlseg_next_at h
    cases fuel with
    | zero => simp at hf
    | succ f =>
      simp only [tailP, hnext]
      have h' : dlseg s none ((u ++ [n]) ++ m :: v') none := by
        have hassoc : (u ++ [n]) ++ m :: v' = u ++ n :: (m :: v') := by simp
        rw [hassoc]; exact h
      rw [ih (u ++ [n]) m f h' (by simpa using hf)]
      rw [List.getLastD_cons]

theorem headI_mem {c : List Nat} (h : c ≠ []) : c.headI ∈ c := by
  cases c with
  | nil => exact absurd rfl h
  | cons x xs => simp [List.headI]

/-- Realizes gives disjointness facts through List.nodup_append once the
flatten is unfolded; this helper extracts them for a two-chain prefix. -/
theorem realizes_two_disjoint {s : St} {ca cb : List Nat}
    {rest : List (List Nat)} (h : Realizes s (ca :: cb :: rest)) :
    ca.Nodup ∧ cb.Nodup ∧ ca.Disjoint cb ∧
    (∀ c ∈ rest, ca.Disjoint c ∧ cb.Disjoint c) := by
  obtain ⟨hnd, _, _⟩ := h
  simp only [List.flatten_cons] at hnd
  rw [List.nodup_append] at hnd
  obtain ⟨hca, hrest, hdisj⟩ := hnd
  rw [List.nodup_append] at hrest
  obtain ⟨hcb, hfl, hdisj2⟩ := hrest
  refine ⟨hca, hcb, ?_, ?_⟩
  · intro x hx hx2
    exact hdisj hx (by simp [hx2])
  · intro c hc
    constructor
    · intro x hx hx2
      exact hdisj hx (by
        simp only [List.mem_append]
        right
        exact List.mem_flatten.mpr ⟨c, hc, hx2⟩)
    · intro x hx hx2
      exact hdisj2 hx (List.mem_flatten.mpr ⟨c, hc, hx2⟩)

theorem merge_none (s : St) (fuel a : Nat) : merge s fuel a none = s := rfl

theorem merge_self (s : St) (fuel a : Nat) : merge s fuel a (some a) = s := by
  simp [merge]

/-- ListNode::merge is a no-op when both nodes already share a list head. -/
theorem merge_same_chain {s : St} {c : List Nat} {rest : List (List Nat)}
    (h : Realizes s (c :: rest)) {a b : Nat} (ha : a ∈ c) (hb : b ∈ c)
    {fuel : Nat} (hf : c.length ≤ fuel) :
    merge s fuel a (some b) = s := by
  obtain ⟨_, _, hsg⟩ := h
  have hc : dlseg s none c none := hsg c (by simp)
  by_cases hba : b = a
  · simp [merge, hba]
  · obtain ⟨ua, va, hua⟩ := List.append_of_mem ha
    obtain ⟨ub, vb, hub⟩ := List.append_of_mem hb
    have hla : ua.length < c.length := by
      rw [hua]; simp only [List.length_append, List.length_cons]; omega
    have hlb : ub.length < c.length := by
      rw [hub]; simp only [List.length_append, List.length_cons]; omega
    have hha : headP s fuel a = c.headI :=
      (headP_eq ua a va fuel (hua ▸ hc) (by omega)).trans (by rw [hua])
    have hhb : headP s fuel b = c.headI :=
      (headP_eq ub b vb fuel (hub ▸ hc) (by omega)).trans (by rw [hub])
    simp [merge, hba, hha, hhb]

/-- ListNode::merge on nodes of two distinct chains splices the first
node's full chain in front of the second node's full chain, and touches no
node outside the two chains. -/
theorem merge_refines {s : St} {ca cb : List Nat} {rest : List (List Nat)}
    (h : Realizes s (ca :: cb :: rest))
    {a b : Nat} (ha : a ∈ ca) (hb : b ∈ cb) {fuel : Nat}
    (hfa : ca.length ≤ fuel) (hfb : cb.length ≤ fuel) :
    Realizes (merge s fuel a (some b)) ((ca ++ cb) :: rest) ∧
    (∀ m, m ∉ ca → m ∉ cb → merge s fuel a (some b) m = s m) := by
  obtain ⟨hca, hcb, hdisj, hdrest⟩ := realizes_two_disjoint h
  obtain ⟨hnd, hne, hsg⟩ := h
  have hdca : dlseg s none ca none := hsg ca (by simp)
  have hdcb : dlseg s none cb none := hsg cb (by simp)
  have hcane : ca ≠ [] := hne ca (by simp)
  have hcbne : cb ≠ [] := hne cb (by simp)
  have hba : b ≠ a := ne_of_mem_of_not_mem hb (hdisj ha)
  -- compute the head of b's chain and the head and tail of a's chain
  obtain ⟨ua, va, hua⟩ := List.append_of_mem ha
  obtain ⟨ub, vb, hub⟩ := List.append_of_mem hb
  have hla : ua.length < ca.length := by
    rw [hua]; simp only [List.length_append, List.length_cons]; omega
  have hlb : ub.length < cb.length := by
    rw [hub]; simp only [List.length_append, List.length_cons]; omega
  have hlva : va.length < ca.length := by
    rw [hua]; simp only [List.length_append, List.length_cons]; omega
  have hha : headP s fuel a = ca.headI :=
    (headP_eq ua a va fuel (hua ▸ hdca) (by omega)).trans (by rw [hua])
  have hhb : headP s fuel b = cb.headI :=
    (headP_eq ub b vb fuel (hub ▸ hdcb) (by omega)).trans (by rw [hub])
  set tlA := va.getLastD a with htlA
  set hdB := cb.headI with hhdB
  have hta : tailP s fuel a = tlA :=
    tailP_eq va ua a fuel (hua ▸ hdca) (by omega)
  have hlastA : ca.getLast? = some tlA := by
    rw [hua]; exact getLast?_append_cons_eq ua a va
  have htl_mem : tlA ∈ ca := by
    rw [hua]
    have := getLastD_mem a va
    simp only [List.mem_append, List.mem_cons]
    rcases List.mem_cons.mp this with he | hm
    · right; left; exact he
    · right; right; exact hm
  have hhd_mem : hdB ∈ cb := headI_mem hcbne
  have hheads : ca.headI ≠ cb.headI :=
    (ne_of_mem_of_not_mem hhd_mem (hdisj (headI_mem hcane))).symm
  -- the state after the two pointer writes
  have hs' : merge s fuel a (some b) =
      setPrev (setNext s tlA (some hdB)) hdB (some tlA) := by
    simp only [merge]
    rw [if_neg hba, hha, hhb, if_neg hheads, hta]
  -- dlseg for the spliced chain
  have hd1 : dlseg (setNext s tlA (some hdB)) none ca (some hdB) :=
    dlseg_set_last_next hlastA hca hdca
  have hd2 : dlseg (setNext s tlA (some hdB)) none cb none := by
    refine dlseg_mono (fun m hm => ?_) hdcb
    exact setNext_other (ne_of_mem_of_not_mem hm (hdisj htl_mem))
  have hcbcons : hdB :: cb.tail = cb := by
    rw [hhdB]
    cases cb with
    | nil => exact absurd rfl hcbne
    | cons x xs => rfl
  have hhd_tail : hdB ∉ cb.tail := by
    have h2 := hcb
    rw [← hcbcons] at h2
    exact (List.nodup_cons.mp h2).1
  have hd2b : dlseg (setNext s tlA (some hdB)) none (hdB :: cb.tail) none := by
    rw [hcbcons]; exact hd2
  have hd3 : dlseg (setPrev (setNext s tlA (some hdB)) hdB (some tlA))
      (some tlA) cb none := by
    rw [← hcbcons]
    exact dlseg_set_head_prev hhd_tail hd2b
  have hd4 : dlseg (setPrev (setNext s tlA (some hdB)) hdB (some tlA))
      none ca (some hdB) := by
    refine dlseg_mono (fun m hm => ?_) hd1
    exact setPrev_other (ne_of_mem_of_not_mem hhd_mem (hdisj hm)).symm
  have hjoin : dlseg (setPrev (setNext s tlA (some hdB)) hdB (some tlA))
      none (ca ++ cb) none := by
    rw [← hcbcons, dlseg_append hlastA hdB cb.tail]
    exact ⟨hd4, by rw [hcbcons]; exact hd3⟩
  -- frame
  have hframe : ∀ m, m ∉ ca → m ∉ cb → merge s fuel a (some b) m = s m := by
    intro m hm1 hm2
    rw [hs']
    rw [setPrev_other (ne_of_mem_of_not_mem hhd_mem hm2).symm,
      setNext_other (ne_of_mem_of_not_mem htl_mem hm1).symm]
  refine ⟨⟨?_, ?_, ?_⟩, hframe⟩
  · simp only [List.flatten_cons] at hnd ⊢
    rwa [List.append_assoc]
  · intro c hc
    rcases List.mem_cons.mp hc with he | hc2
    · subst he; simp [hcane]
    · exact hne c (by simp [hc2])
  · intro c hc
    rcases List.mem_cons.mp hc with he | hc2
    · subst he; rw [hs']; exact hjoin
    · have hd := hsg c (by simp [hc2])
      have hdj := hdrest c hc2
      rw [hs']
      refine dlseg_mono (fun m hm => ?_) hd
      rw [setPrev_other (ne_of_mem_of_not_mem hm (hdj.2 hhd_mem)),
        setNext_other (ne_of_mem_of_not_mem hm (hdj.1 htl_mem))]

theorem setNode_id {s : St} {n : Nat} {nd : Node} (h : s n = nd) :
    setNode s n nd = s := by
  funext m
  by_cases hm : m = n
  · subst hm; rw [setNode_same, h]
  · rw [setNode_other hm]

theorem removeN_self (s : St) (n : Nat) : removeN s n n = ⟨none, none⟩ := by
  simp only [removeN, setNode_same]

/-- ListNode::remove on an already-unlinked node changes nothing. -/
theorem removeN_of_unlinked {s : St} {n : Nat} (h : s n = ⟨none, none⟩) :
    removeN s n = s := by
  simp only [removeN, h]
  exact setNode_id h

/-- ListNode::remove is idempotent: the first call leaves the node with
null links, so the second call takes no branch and rewrites nothing. -/
theorem removeN_idem (s : St) (n : Nat) :
    removeN (removeN s n) n = removeN s n :=
  removeN_of_unlinked (removeN_self s n)

theorem not_mem_ne {m t : Nat} {l : List Nat} (hm : m ∉ l) (ht : t ∈ l) :
    m ≠ t := (ne_of_mem_of_not_mem ht hm).symm

/-- ListNode::remove detaches a node from its chain: the two neighbors are
patched around it, the rest of the chain keeps its order, the removed node
becomes unlinked, and no node outside the chain is touched. -/
theorem remove_refines {s : St} {u : List Nat} {n : Nat} {v : List Nat}
    {rest : List (List Nat)} (h : Realizes s ((u ++ n :: v) :: rest)) :
    Realizes (removeN s n)
      ([n] :: (if u ++ v = [] then rest else (u ++ v) :: rest)) ∧
    removeN s n n = ⟨none, none⟩ ∧
    (∀ m, m ∉ u ++ n :: v → removeN s n m = s m) := by
  obtain ⟨hnd, hne, hsg⟩ := h
  have hdc : dlseg s none (u ++ n :: v) none := hsg _ (by simp)
  have hnd2 : ((u ++ n :: v) ++ rest.flatten).Nodup := by simpa using hnd
  have hcnd : (u ++ n :: v).Nodup := (List.nodup_append.mp hnd2).1
  have hdisjfl : (u ++ n :: v).Disjoint rest.flatten :=
    (List.nodup_append.mp hnd2).2.2
  have hund : u.Nodup := (List.nodup_append.mp hcnd).1
  have hnvnd : (n :: v).Nodup := (List.nodup_append.mp hcnd).2.1
  have hdisjunv : u.Disjoint (n :: v) := (List.nodup_append.mp hcnd).2.2
  have hnu : n ∉ u := fun hn => hdisjunv hn (List.mem_cons_self n v)
  have hnv : n ∉ v := (List.nodup_cons.mp hnvnd).1
  have hvnd : v.Nodup := (List.nodup_cons.mp hnvnd).2
  have hprev : (s n).prev = u.getLast? := dlseg_prev_at hdc
  have hnext : (s n).next = v.head? := dlseg_next_at hdc
  have hsgrest : ∀ d ∈ rest, dlseg s none d none := fun d hd => hsg d (by simp [hd])
  have hnerest : ∀ d ∈ rest, d ≠ [] := fun d hd => hne d (by simp [hd])
  have hrest_disj : ∀ d ∈ rest, ∀ m ∈ d, ∀ t ∈ u ++ n :: v, m ≠ t :=
    fun d hd m hm t ht =>
      ne_of_mem_of_not_mem (List.mem_flatten.mpr ⟨d, hd, hm⟩) (hdisjfl ht)
  cases u with
  | nil =>
    cases v with
    | nil =>
      have hprev0 : (s n).prev = none := by simpa using hprev
      have hnext0 : (s n).next = none := by simpa using hnext
      have hform : removeN s n = setNode s n ⟨none, none⟩ := by
        simp only [removeN, hprev0, hnext0]
      rw [if_pos (show (([] : List Nat) ++ []) = [] from rfl)]
      refine ⟨⟨?_, ?_, ?_⟩, removeN_self s n, ?_⟩
      · simpa using hnd
      · intro d hd
        rcases List.mem_cons.mp hd with he | hd2
        · subst he; simp
        · exact hnerest d hd2
      · intro d hd
        rcases List.mem_cons.mp hd with he | hd2
        · subst he
          rw [hform]
          show (setNode s n ⟨none, none⟩ n).prev = none ∧
            (setNode s n ⟨none, none⟩ n).next = none
          rw [setNode_same]
          exact ⟨rfl, rfl⟩
        · rw [hform]
          refine dlseg_mono (fun m hm => ?_) (hsgrest d hd2)
          exact setNode_other (hrest_disj d hd2 m hm n (by simp))
      · intro m hm
        rw [hform]
        exact setNode_other (by simpa using hm)
    | cons w vs =>
      have hprev0 : (s n).prev = none := by simpa using hprev
      have hnext0 : (s n).next = some w := by simpa using hnext
      have hform : removeN s n = setNode (setPrev s w none) n ⟨none, none⟩ := by
        simp only [removeN, hprev0, hnext0]
      have hv : dlseg s (some n) (w :: vs) none := by
        rw [List.nil_append] at hdc
        exact (dlseg_cons.mp hdc).2.2
      have hwvs : w ∉ vs := (List.nodup_cons.mp hvnd).1
      have hnw : n ≠ w := fun he => hnv (by rw [he]; exact List.mem_cons_self w vs)
      rw [if_neg (by simp)]
      refine ⟨⟨?_, ?_, ?_⟩, removeN_self s n, ?_⟩
      · simp only [List.flatten_cons, List.nil_append] at hnd ⊢
        simp only [List.singleton_append]
        exact hnd
      · intro d hd
        rcases List.mem_cons.mp hd with he | hd2
        · subst he; simp
        rcases List.mem_cons.mp hd2 with he | hd3
        · subst he; simp
        · exact hnerest d hd3
      · intro d hd
        rcases List.mem_cons.mp hd with he | hd2
        · subst he
          rw [hform]
          show (setNode (setPrev s w none) n ⟨none, none⟩ n).prev = none ∧
            (setNode (setPrev s w none) n ⟨none, none⟩ n).next = none
          rw [setNode_same]
          exact ⟨rfl, rfl⟩
        rcases List.mem_cons.mp hd2 with he | hd3
        · subst he
          rw [hform, List.nil_append]
          have h1 : dlseg (setPrev s w none) none (w :: vs) none :=
            dlseg_set_head_prev hwvs hv
          refine dlseg_mono (fun m hm => ?_) h1
          refine setNode_other (fun he => ?_)
          rw [he] at hm
          exact hnv hm
        · rw [hform]
          refine dlseg_mono (fun m hm => ?_) (hsgrest d hd3)
          rw [setNode_other (hrest_disj d hd3 m hm n (by simp)),
            setPrev_other (hrest_disj d hd3 m hm w (by simp))]
      · intro m hm
        rw [List.nil_append] at hm
        rw [hform]
        rw [setNode_other (not_mem_ne hm (List.mem_cons_self n (w :: vs))),
          setPrev_other (not_mem_ne hm
            (List.mem_cons_of_mem n (List.mem_cons_self w vs)))]
  | cons x xs =>
    have hlastU : (x :: xs).getLast? = some (xs.getLastD x) := getLast?_cons_eq x xs
    set tlU := xs.getLastD x with htlU
    have htlU_mem : tlU ∈ x :: xs := getLastD_mem x xs
    have hn_tlU : n ≠ tlU := (ne_of_mem_of_not_mem htlU_mem hnu).symm
    have hprev1 : (s n).prev = some tlU := by rw [hprev, hlastU]
    have hsplit := (dlseg_append hlastU n v).mp hdc
    have hu : dlseg s none (x :: xs) (some n) := hsplit.1
    have hv : dlseg s (some n) v none := (dlseg_cons.mp hsplit.2).2.2
    cases v with
    | nil =>
      have hnext0 : (s n).next = none := by simpa using hnext
      have hform : removeN s n =
          setNode (setNext s tlU none) n ⟨none, none⟩ := by
        simp only [removeN, hprev1, hnext0, setNext_other hn_tlU]
      rw [if_neg (by simp)]
      refine ⟨⟨?_, ?_, ?_⟩, removeN_self s n, ?_⟩
      · simp only [List.flatten_cons, List.append_nil] at hnd ⊢
        refine (List.Perm.nodup_iff (List.perm_iff_count.mpr (fun a => ?_))).mp hnd
        simp only [List.count_append, List.count_cons, List.count_nil,
          List.singleton_append]
        ring
      · intro d hd
        rcases List.mem_cons.mp hd with he | hd2
        · subst he; simp
        rcases List.mem_cons.mp hd2 with he | hd3
        · subst he; simp
        · exact hnerest d hd3
      · intro d hd
        rcases List.mem_cons.mp hd with he | hd2
        · subst he
          rw [hform]
          show (setNode (setNext s tlU none) n ⟨none, none⟩ n).prev = none ∧
            (setNode (setNext s tlU none) n ⟨none, none⟩ n).next = none
          rw [setNode_same]
          exact ⟨rfl, rfl⟩
        rcases List.mem_cons.mp hd2 with he | hd3
        · subst he
          rw [hform, List.append_nil]
          have h1 : dlseg (setNext s tlU none) none (x :: xs) none :=
            dlseg_set_last_next hlastU hund hu
          refine dlseg_mono (fun m hm => ?_) h1
          refine setNode_other (fun he => ?_)
          rw [he] at hm
          exact hnu hm
        · rw [hform]
          refine dlseg_mono (fun m hm => ?_) (hsgrest d hd3)
          rw [setNode_other (hrest_disj d hd3 m hm n (by simp)),
            setNext_other (hrest_disj d hd3 m hm tlU
              (List.mem_append.mpr (Or.inl htlU_mem)))]
      · intro m hm
        rw [hform]
        rw [setNode_other (not_mem_ne hm (List.mem_append.mpr (Or.inr (by simp)))),
          setNext_other (not_mem_ne hm (List.mem_append.mpr (Or.inl htlU_mem)))]
    | cons w vs =>
      have hnext1 : (s n).next = some w := by simpa using hnext
      have hform : removeN s n =
          setNode (setPrev (setNext s tlU (some w)) w (some tlU)) n
            ⟨none, none⟩ := by
        simp only [removeN, hprev1, hnext1, setNext_other hn_tlU]
      have hwvs : w ∉ vs := (List.nodup_cons.mp hvnd).1
      have hwu : w ∉ x :: xs := fun hw => hdisjunv hw (by simp)
      have htlU_nv : tlU ∉ w :: vs := fun ht =>
        hdisjunv htlU_mem (List.mem_cons_of_mem n ht)
      rw [if_neg (by simp)]
      refine ⟨⟨?_, ?_, ?_⟩, removeN_self s n, ?_⟩
      · simp only [List.flatten_cons] at hnd ⊢
        refine (List.Perm.nodup_iff (List.perm_iff_count.mpr (fun a => ?_))).mp hnd
        simp only [List.count_append, List.count_cons, List.count_nil,
          List.singleton_append]
        ring
      · intro d hd
        rcases List.mem_cons.mp hd with he | hd2
        · subst he; simp
        rcases List.mem_cons.mp hd2 with he | hd3
        · subst he; simp
        · exact hnerest d hd3
      · intro d hd
        rcases List.mem_cons.mp hd with he | hd2
        · subst he
          rw [hform]
          show (setNode _ n ⟨none, none⟩ n).prev = none ∧
            (setNode _ n ⟨none, none⟩ n).next = none
          rw [setNode_same]
          exact ⟨rfl, rfl⟩
        rcases List.mem_cons.mp hd2 with he | hd3
        · subst he
          rw [hform]
          have h1 : dlseg (setNext s tlU (some w)) none (x :: xs) (some w) :=
            dlseg_set_last_next hlastU hund hu
          have h2 : dlseg (setNext s tlU (some w)) (some n) (w :: vs) none :=
            dlseg_mono (fun m hm => setNext_other
              (ne_of_mem_of_not_mem hm htlU_nv)) hv
          have h3 : dlseg (setPrev (setNext s tlU (some w)) w (some tlU))
              (some tlU) (w :: vs) none :=
            dlseg_set_head_prev hwvs h2
          have h4 : dlseg (setPrev (setNext s tlU (some w)) w (some tlU))
              none (x :: xs) (some w) :=
            dlseg_mono (fun m hm => setPrev_other
              (ne_of_mem_of_not_mem hm hwu).symm.symm) h1
          have h5 : dlseg (setPrev (setNext s tlU (some w)) w (some tlU))
              none ((x :: xs) ++ w :: vs) none :=
            (dlseg_append hlastU w vs).mpr ⟨h4, h3⟩
          refine dlseg_mono (fun m hm => ?_) h5
          refine setNode_other (fun he => ?_)
          rw [he] at hm
          rcases List.mem_append.mp hm with hm1 | hm2
          · exact hnu hm1
          · exact hnv hm2
        · rw [hform]
          refine dlseg_mono (fun m hm => ?_) (hsgrest d hd3)
          rw [setNode_other (hrest_disj d hd3 m hm n (by simp)),
            setPrev_other (hrest_disj d hd3 m hm w (by simp)),
            setNext_other (hrest_disj d hd3 m hm tlU
              (List.mem_append.mpr (Or.inl htlU_mem)))]
      · intro m hm
        rw [hform]
        rw [setNode_other (not_mem_ne hm (List.mem_append.mpr (Or.inr (by simp)))),
          setPrev_other (not_mem_ne hm (List.mem_append.mpr (Or.inr (by simp)))),
          setNext_other (not_mem_ne hm (List.mem_append.mpr (Or.inl htlU_mem)))]

/-- The ListNode move constructor relinks the moved-from node's neighbors
to the new node, which takes over the old node's position in its chain,
and leaves the moved-from node unlinked.  dst is any fresh node. -/
theorem move_refines {s : St} {u : List Nat} {src : Nat} {v : List Nat}
    {rest : List (List Nat)} (h : Realizes s ((u ++ src :: v) :: rest))
    {dst : Nat} (hfresh : dst ∉ (u ++ src :: v) ++ rest.flatten) :
    Realizes (moveNode s src dst) ((u ++ dst :: v) :: [src] :: rest) ∧
    moveNode s src dst src = ⟨none, none⟩ ∧
    (∀ p, (s src).prev = some p → moveNode s src dst p =
      ⟨(s p).prev, some dst⟩) ∧
    (∀ q, (s src).next = some q → moveNode s src dst q =
      ⟨some dst, (s q).next⟩) ∧
    (∀ m, m ∉ u ++ src :: v → m ≠ dst → moveNode s src dst m = s m) := by
  obtain ⟨hnd, hne, hsg⟩ := h
  have hdc : dlseg s none (u ++ src :: v) none := hsg _ (by simp)
  have hnd2 : ((u ++ src :: v) ++ rest.flatten).Nodup := by simpa using hnd
  have hcnd : (u ++ src :: v).Nodup := (List.nodup_append.mp hnd2).1
  have hdisjfl : (u ++ src :: v).Disjoint rest.flatten :=
    (List.nodup_append.mp hnd2).2.2
  have hund : u.Nodup := (List.nodup_append.mp hcnd).1
  have hnvnd : (src :: v).Nodup := (List.nodup_append.mp hcnd).2.1
  have hdisjunv : u.Disjoint (src :: v) := (List.nodup_append.mp hcnd).2.2
  have hnu : src ∉ u := fun hn => hdisjunv hn (List.mem_cons_self src v)
  have hnv : src ∉ v := (List.nodup_cons.mp hnvnd).1
  have hvnd : v.Nodup := (List.nodup_cons.mp hnvnd).2
  have hprev : (s src).prev = u.getLast? := dlseg_prev_at hdc
  have hnext : (s src).next = v.head? := dlseg_next_at hdc
  have hdu : dst ∉ u := fun hd => hfresh (List.mem_append.mpr (Or.inl
    (List.mem_append.mpr (Or.inl hd))))
  have hdsv : dst ∉ src :: v := fun hd => hfresh (List.mem_append.mpr (Or.inl
    (List.mem_append.mpr (Or.inr hd))))
  have hds : dst ≠ src := fun he => hdsv (by rw [he]; exact List.mem_cons_self src v)
  have hdv : dst ∉ v := fun hd => hdsv (List.mem_cons_of_mem src hd)
  have hdfl : dst ∉ rest.flatten := fun hd => hfresh (List.mem_append.mpr (Or.inr hd))
  have hsgrest : ∀ d ∈ rest, dlseg s none d none := fun d hd => hsg d (by simp [hd])
  have hnerest : ∀ d ∈ rest, d ≠ [] := fun d hd => hne d (by simp [hd])
  have hrest_disj : ∀ d ∈ rest, ∀ m ∈ d, ∀ t ∈ u ++ src :: v, m ≠ t :=
    fun d hd m hm t ht =>
      ne_of_mem_of_not_mem (List.mem_flatten.mpr ⟨d, hd, hm⟩) (hdisjfl ht)
  have hrest_dst : ∀ d ∈ rest, ∀ m ∈ d, m ≠ dst :=
    fun d hd m hm => ne_of_mem_of_not_mem (List.mem_flatten.mpr ⟨d, hd, hm⟩) hdfl
  have hndbig : (dst :: ((u ++ src :: v) ++ rest.flatten)).Nodup :=
    List.nodup_cons.mpr ⟨hfresh, hnd2⟩
  cases u with
  | nil =>
    cases v with
    | nil =>
      have hprev0 : (s src).prev = none := by simpa using hprev
      have hnext0 : (s src).next = none := by simpa using hnext
      have hform : moveNode s src dst =
          setNode (setNode s dst ⟨none, none⟩) src ⟨none, none⟩ := by
        simp only [moveNode, hprev0, hnext0]
      refine ⟨⟨?_, ?_, ?_⟩, ?_, ?_, ?_, ?_⟩
      · refine (List.Perm.nodup_iff (List.perm_iff_count.mpr (fun a => ?_))).mp hndbig
        simp only [List.flatten_cons, List.count_append, List.count_cons,
          List.count_nil, List.nil_append, List.singleton_append]
      · intro d hd
        rcases List.mem_cons.mp hd with he | hd2
        · subst he; simp
        rcases List.mem_cons.mp hd2 with he | hd3
        · subst he; simp
        · exact hnerest d hd3
      · intro d hd
        rcases List.mem_cons.mp hd with he | hd2
        · subst he
          rw [hform, List.nil_append]
          show (setNode (setNode s dst ⟨none, none⟩) src ⟨none, none⟩ dst).prev
              = none ∧
            (setNode (setNode s dst ⟨none, none⟩) src ⟨none, none⟩ dst).next = none
          rw [setNode_other hds, setNode_same]
          exact ⟨rfl, rfl⟩
        rcases List.mem_cons.mp hd2 with he | hd3
        · subst he
          rw [hform]
          show (setNode (setNode s dst ⟨none, none⟩) src ⟨none, none⟩ src).prev
              = none ∧
            (setNode (setNode s dst ⟨none, none⟩) src ⟨none, none⟩ src).next = none
          rw [setNode_same]
          exact ⟨rfl, rfl⟩
        · rw [hform]
          refine dlseg_mono (fun m hm => ?_) (hsgrest d hd3)
          rw [setNode_other (hrest_disj d hd3 m hm src (by simp)),
            setNode_other (hrest_dst d hd3 m hm)]
      · rw [hform, setNode_same]
      · intro p hp; rw [hprev0] at hp; cases hp
      · intro q hq; rw [hnext0] at hq; cases hq
      · intro m hm hmd
        rw [hform]
        rw [setNode_other (by simpa using hm), setNode_other hmd]
    | cons w vs =>
      have hprev0 : (s src).prev = none := by simpa using hprev
      have hnext0 : (s src).next = some w := by simpa using hnext
      have hv : dlseg s (some src) (w :: vs) none := by
        rw [List.nil_append] at hdc
        exact (dlseg_cons.mp hdc).2.2
      have hwvs : w ∉ vs := (List.nodup_cons.mp hvnd).1
      have hw_src : w ≠ src := ne_of_mem_of_not_mem (List.mem_cons_self w vs) hnv
      have hw_dst : w ≠ dst := ne_of_mem_of_not_mem (List.mem_cons_self w vs) hdv
      have hform : moveNode s src dst =
          setNode (setPrev (setNode s dst ⟨none, some w⟩) w (some dst)) src
            ⟨none, none⟩ := by
        simp only [moveNode, hprev0, hnext0]
      have hdstval : moveNode s src dst dst = ⟨none, some w⟩ := by
        rw [hform, setNode_other hds, setPrev_other hw_dst.symm.symm.symm,
          setNode_same]
      refine ⟨⟨?_, ?_, ?_⟩, ?_, ?_, ?_, ?_⟩
      · refine (List.Perm.nodup_iff (List.perm_iff_count.mpr (fun a => ?_))).mp hndbig
        simp only [List.flatten_cons, List.count_append, List.count_cons,
          List.count_nil, List.nil_append, List.singleton_append]
        ring
      · intro d hd
        rcases List.mem_cons.mp hd with he | hd2
        · subst he; simp
        rcases List.mem_cons.mp hd2 with he | hd3
        · subst he; simp
        · exact hnerest d hd3
      · intro d hd
        rcases List.mem_cons.mp hd with he | hd2
        · subst he
          rw [List.nil_append]
          have h1 : dlseg (setNode s dst ⟨none, some w⟩) (some src) (w :: vs)
              none :=
            dlseg_mono (fun m hm => setNode_other
              (ne_of_mem_of_not_mem hm hdv)) hv
          have h2 : dlseg (setPrev (setNode s dst ⟨none, some w⟩) w (some dst))
              (some dst) (w :: vs) none := dlseg_set_head_prev hwvs h1
          have h3 : dlseg (moveNode s src dst) (some dst) (w :: vs) none := by
            rw [hform]
            exact dlseg_mono (fun m hm => setNode_other
              (ne_of_mem_of_not_mem hm hnv)) h2
          rw [dlseg_cons]
          refine ⟨?_, ?_, h3⟩
          · rw [hdstval]
          · rw [hdstval]
        rcases List.mem_cons.mp hd2 with he | hd3
        · subst he
          rw [hform]
          show (setNode _ src ⟨none, none⟩ src).prev = none ∧
            (setNode _ src ⟨none, none⟩ src).next = none
          rw [setNode_same]
          exact ⟨rfl, rfl⟩
        · rw [hform]
          refine dlseg_mono (fun m hm => ?_) (hsgrest d hd3)
          rw [setNode_other (hrest_disj d hd3 m hm src (by simp)),
            setPrev_other (hrest_disj d hd3 m hm w (by simp)),
            setNode_other (hrest_dst d hd3 m hm)]
      · rw [hform, setNode_same]
      · intro p hp; rw [hprev0] at hp; cases hp
      · intro q hq
        rw [hnext0] at hq
        have hqw : q = w := (Option.some.inj hq).symm
        subst hqw
        rw [hform, setNode_other hw_src, setPrev_same, setNode_other hw_dst]
      · intro m hm hmd
        rw [List.nil_append] at hm
        rw [hform]
        rw [setNode_other (not_mem_ne hm (List.mem_cons_self src (w :: vs))),
          setPrev_other (not_mem_ne hm (List.mem_cons_of_mem src
            (List.mem_cons_self w vs))),
          setNode_other hmd]
  | cons x xs =>
    have hlastU : (x :: xs).getLast? = some (xs.getLastD x) := getLast?_cons_eq x xs
    set tlU := xs.getLastD x with htlU
    have htlU_mem : tlU ∈ x :: xs := getLastD_mem x xs
    have hsrc_tlU : src ≠ tlU := (ne_of_mem_of_not_mem htlU_mem hnu).symm
    have hdst_tlU : dst ≠ tlU := (ne_of_mem_of_not_mem htlU_mem hdu).symm
    have htlU_src : tlU ≠ src := ne_of_mem_of_not_mem htlU_mem hnu
    have hprev1 : (s src).prev = some tlU := by rw [hprev, hlastU]
    have hsplit := (dlseg_append hlastU src v).mp hdc
    have hu : dlseg s none (x :: xs) (some src) := hsplit.1
    have hv : dlseg s (some src) v none := (dlseg_cons.mp hsplit.2).2.2
    cases v with
    | nil =>
      have hnext0 : (s src).next = none := by simpa using hnext
      have hform : moveNode s src dst =
          setNode (setNext (setNode s dst ⟨some tlU, none⟩) tlU (some dst)) src
            ⟨none, none⟩ := by
        simp only [moveNode, hprev1, hnext0]
      have hdstval : moveNode s src dst dst = ⟨some tlU, none⟩ := by
        rw [hform, setNode_other hds, setNext_other hdst_tlU, setNode_same]
      refine ⟨⟨?_, ?_, ?_⟩, ?_, ?_, ?_, ?_⟩
      · refine (List.Perm.nodup_iff (List.perm_iff_count.mpr (fun a => ?_))).mp hndbig
        simp only [List.flatten_cons, List.count_append, List.count_cons,
          List.count_nil, List.nil_append, List.singleton_append]
        ring
      · intro d hd
        rcases List.mem_cons.mp hd with he | hd2
        · subst he; simp
        rcases List.mem_cons.mp hd2 with he | hd3
        · subst he; simp
        · exact hnerest d hd3
      · intro d hd
        rcases List.mem_cons.mp hd with he | hd2
        · subst he
          have h1 : dlseg (setNode s dst ⟨some tlU, none⟩) none (x :: xs)
              (some src) :=
            dlseg_mono (fun m hm => setNode_other
              (ne_of_mem_of_not_mem hm hdu)) hu
          have h2 : dlseg (setNext (setNode s dst ⟨some tlU, none⟩) tlU
              (some dst)) none (x :: xs) (some dst) :=
            dlseg_set_last_next hlastU hund h1
          have h3 : dlseg (moveNode s src dst) none (x :: xs) (some dst) := by
            rw [hform]
            exact dlseg_mono (fun m hm => setNode_other
              (ne_of_mem_of_not_mem hm hnu)) h2
          rw [dlseg_append hlastU dst []]
          refine ⟨h3, ?_, ?_⟩
          · rw [hdstval]
          · rw [hdstval]
        rcases List.mem_cons.mp hd2 with he | hd3
        · subst he
          rw [hform]
          show (setNode _ src ⟨none, none⟩ src).prev = none ∧
            (setNode _ src ⟨none, none⟩ src).next = none
          rw [setNode_same]
          exact ⟨rfl, rfl⟩
        · rw [hform]
          refine dlseg_mono (fun m hm => ?_) (hsgrest d hd3)
          rw [setNode_other (hrest_disj d hd3 m hm src (by simp)),
            setNext_other (hrest_disj d hd3 m hm tlU
              (List.mem_append.mpr (Or.inl htlU_mem))),
            setNode_other (hrest_dst d hd3 m hm)]
      · rw [hform, setNode_same]
      · intro p hp
        rw [hprev1] at hp
        have hpt : p = tlU := (Option.some.inj hp).symm
        subst hpt
        rw [hform, setNode_other htlU_src, setNext_same,
          setNode_other hdst_tlU.symm.symm.symm]
      · intro q hq; rw [hnext0] at hq; cases hq
      · intro m hm hmd
        rw [hform]
        rw [setNode_other (not_mem_ne hm (List.mem_append.mpr (Or.inr (by simp)))),
          setNext_other (not_mem_ne hm (List.mem_append.mpr (Or.inl htlU_mem))),
          setNode_other hmd]
    | cons w vs =>
      have hnext1 : (s src).next = some w := by simpa using hnext
      have hwvs : w ∉ vs := (List.nodup_cons.mp hvnd).1
      have hw_src : w ≠ src := ne_of_mem_of_not_mem (List.mem_cons_self w vs) hnv
      have hw_dst : w ≠ dst := ne_of_mem_of_not_mem (List.mem_cons_self w vs) hdv
      have hwu : w ∉ x :: xs := fun hw => hdisjunv hw (by simp)
      have htlU_nv : tlU ∉ w :: vs := fun ht =>
        hdisjunv htlU_mem (List.mem_cons_of_mem src ht)
      have hw_tlU : w ≠ tlU := ne_of_mem_of_not_mem (List.mem_cons_self w vs)
        (fun hc => htlU_nv hc) |>.symm.symm
      have hform : moveNode s src dst =
          setNode (setPrev (setNext (setNode s dst ⟨some tlU, some w⟩) tlU
            (some dst)) w (some dst)) src ⟨none, none⟩ := by
        simp only [moveNode, hprev1, hnext1]
      have hdstval : moveNode s src dst dst = ⟨some tlU, some w⟩ := by
        rw [hform, setNode_other hds, setPrev_other hw_dst.symm.symm.symm,
          setNext_other hdst_tlU, setNode_same]
      refine ⟨⟨?_, ?_, ?_⟩, ?_, ?_, ?_, ?_⟩
      · refine (List.Perm.nodup_iff (List.perm_iff_count.mpr (fun a => ?_))).mp hndbig
        simp only [List.flatten_cons, List.count_append, List.count_cons,
          List.count_nil, List.nil_append, List.singleton_append]
        ring
      · intro d hd
        rcases List.mem_cons.mp hd with he | hd2
        · subst he; simp
        rcases List.mem_cons.mp hd2 with he | hd3
        · subst he; simp
        · exact hnerest d hd3
      · intro d hd
        rcases List.mem_cons.mp hd with he | hd2
        · subst he
          have h1 : dlseg (setNode s dst ⟨some tlU, some w⟩) none (x :: xs)
              (some src) :=
            dlseg_mono (fun m hm => setNode_other
              (ne_of_mem_of_not_mem hm hdu)) hu
          have h2 : dlseg (setNext (setNode s dst ⟨some tlU, some w⟩) tlU
              (some dst)) none (x :: xs) (some dst) :=
            dlseg_set_last_next hlastU hund h1
          have h3 : dlseg (setPrev (setNext (setNode s dst ⟨some tlU, some w⟩)
              tlU (some dst)) w (some dst)) none (x :: xs) (some dst) :=
            dlseg_mono (fun m hm => setPrev_other
              (ne_of_mem_of_not_mem hm hwu).symm.symm) h2
          have h4 : dlseg (moveNode s src dst) none (x :: xs) (some dst) := by
            rw [hform]
            exact dlseg_mono (fun m hm => setNode_other
              (ne_of_mem_of_not_mem hm hnu)) h3
          have hv1 : dlseg (setNode s dst ⟨some tlU, some w⟩) (some src)
              (w :: vs) none :=
            dlseg_mono (fun m hm => setNode_other
              (ne_of_mem_of_not_mem hm hdv)) hv
          have hv2 : dlseg (setNext (setNode s dst ⟨some tlU, some w⟩) tlU
              (some dst)) (some src) (w :: vs) none :=
            dlseg_mono (fun m hm => setNext_other
              (ne_of_mem_of_not_mem hm htlU_nv)) hv1
          have hv3 : dlseg (setPrev (setNext (setNode s dst ⟨some tlU, some w⟩)
              tlU (some dst)) w (some dst)) (some dst) (w :: vs) none :=
            dlseg_set_head_prev hwvs hv2
          have hv4 : dlseg (moveNode s src dst) (some dst) (w :: vs) none := by
            rw [hform]
            exact dlseg_mono (fun m hm => setNode_other
              (ne_of_mem_of_not_mem hm hnv)) hv3
          rw [dlseg_append hlastU dst (w :: vs)]
          refine ⟨h4, ?_⟩
          rw [dlseg_cons]
          refine ⟨?_, ?_, hv4⟩
          · rw [hdstval]
          · rw [hdstval]
        rcases List.mem_cons.mp hd2 with he | hd3
        · subst he
          rw [hform]
          show (setNode _ src ⟨none, none⟩ src).prev = none ∧
            (setNode _ src ⟨none, none⟩ src).next = none
          rw [setNode_same]
          exact ⟨rfl, rfl⟩
        · rw [hform]
          refine dlseg_mono (fun m hm => ?_) (hsgrest d hd3)
          rw [setNode_other (hrest_disj d hd3 m hm src (by simp)),
            setPrev_other (hrest_disj d hd3 m hm w (by simp)),
            setNext_other (hrest_disj d hd3 m hm tlU
              (List.mem_append.mpr (Or.inl htlU_mem))),
            setNode_other (hrest_dst d hd3 m hm)]
      · rw [hform, setNode_same]
      · intro p hp
        rw [hprev1] at hp
        have hpt : p = tlU := (Option.some.inj hp).symm
        subst hpt
        rw [hform, setNode_other htlU_src, setPrev_other hw_tlU.symm.symm.symm,
          setNext_same, setNode_other hdst_tlU.symm.symm.symm]
      · intro q hq
        rw [hnext1] at hq
        have hqw : q = w := (Option.some.inj hq).symm
        subst hqw
        rw [hform, setNode_other hw_src, setPrev_same, setNext_other hw_tlU,
          setNode_other hw_dst]
      · intro m hm hmd
        rw [hform]
        rw [setNode_other (not_mem_ne hm (List.mem_append.mpr (Or.inr (by simp)))),
          setPrev_other (not_mem_ne hm (List.mem_append.mpr (Or.inr (by simp)))),
          setNext_other (not_mem_ne hm (List.mem_append.mpr (Or.inl htlU_mem))),
          setNode_other hmd]

/-- The abstract effect of ListNode::clusterize on the chain viewed as a
list: a stable partition into N buckets by the key function, with the
buckets concatenated in index order 0..N-1. -/
def clusterizeAbs (N : Nat) (key : Nat → Nat) (c : List Nat) : List Nat :=
  (List.range N).flatMap (fun k => c.filter (fun m => key m = k))

theorem range_sum_single (N j val : Nat) :
    ((List.range N).map (fun k => if j = k then val else 0)).sum =
      if j < N then val else 0 := by
  induction N with
  | zero => simp
  | succ n ih =>
    rw [List.range_succ, List.map_append, List.sum_append, ih]
    by_cases hj : j < n
    · have : j ≠ n := by omega
      simp [hj, this, Nat.lt_succ_of_lt hj]
    · by_cases he : j = n
      · subst he
        simp [hj, Nat.lt_succ_self]
      · have : ¬ j < n + 1 := by omega
        simp [hj, he, this]

theorem count_filter_key (a : Nat) (key : Nat → Nat) (k : Nat) (c : List Nat) :
    (c.filter (fun m => key m = k)).count a =
      if key a = k then c.count a else 0 := by
  by_cases h : key a = k
  · rw [if_pos h]
    exact List.count_filter (by simpa using h)
  · rw [if_neg h]
    refine List.count_eq_zero.mpr (fun hmem => ?_)
    have := (List.mem_filter.mp hmem).2
    exact h (by simpa using this)

theorem clusterizeAbs_count (N : Nat) (key : Nat → Nat) (c : List Nat)
    (a : Nat) : (clusterizeAbs N key c).count a =
      if key a < N then c.count a else 0 := by
  rw [clusterizeAbs, List.flatMap_def, List.count_flatten, List.map_map]
  have hcongr : ((List.range N).map
        (List.count a ∘ fun k => c.filter (fun m => key m = k))) =
      (List.range N).map (fun k => if key a = k then c.count a else 0) := by
    refine List.map_congr_left (fun k _ => ?_)
    exact count_filter_key a key k c
  rw [hcongr, range_sum_single]

/-- The abstract clusterize permutes the chain when every key is in range. -/
theorem clusterizeAbs_perm {N : Nat} {key : Nat → Nat} {c : List Nat}
    (hkey : ∀ m ∈ c, key m < N) : (clusterizeAbs N key c).Perm c := by
  refine List.perm_iff_count.mpr (fun a => ?_)
  rw [clusterizeAbs_count]
  by_cases ha : a ∈ c
  · rw [if_pos (hkey a ha)]
  · have h0 : c.count a = 0 := List.count_eq_zero.mpr ha
    rw [h0]
    split <;> rfl

theorem range_flatMap_single {N k : Nat} (hk : k < N)
    (f : Nat → List Nat) (hf : ∀ j, j < N → j ≠ k → f j = []) :
    (List.range N).flatMap f = f k := by
  induction N with
  | zero => omega
  | succ n ih =>
    rw [List.range_succ, List.flatMap_append]
    by_cases he : k = n
    · subst he
      have h1 : (List.range k).flatMap f = [] := by
        refine List.flatMap_eq_nil_iff.mpr (fun j hj => ?_)
        have hjk : j < k := List.mem_range.mp hj
        exact hf j (by omega) (by omega)
      simp [h1]
    · have hkn : k < n := by omega
      rw [ih hkn (fun j hj hjk => hf j (by omega) hjk)]
      have : f n = [] := hf n (by omega) (by omega)
      simp [this]

/-- Stability: the abstract clusterize preserves each bucket exactly. -/
theorem clusterizeAbs_filter {N k : Nat} (hk : k < N) (key : Nat → Nat)
    (c : List Nat) :
    (clusterizeAbs N key c).filter (fun m => key m = k) =
      c.filter (fun m => key m = k) := by
  rw [clusterizeAbs]
  have h1 : ((List.range N).flatMap
        (fun j => c.filter (fun m => key m = j))).filter
        (fun m => key m = k) =
      (List.range N).flatMap
        (fun j => (c.filter (fun m => key m = j)).filter
          (fun m => key m = k)) := by
    rw [List.flatMap_def, List.flatMap_def, List.filter_flatten, List.map_map]
    rfl
  rw [h1]
  rw [range_flatMap_single hk]
  · rw [List.filter_filter]
    refine List.filter_congr (fun m _ => ?_)
    simp
  · intro j _ hjk
    refine List.filter_eq_nil_iff.mpr (fun m hm => ?_)
    have h2 := (List.mem_filter.mp hm).2
    simp only [decide_eq_true_eq] at h2
    simp only [decide_eq_true_eq]
    omega

/-- The abstract clusterize is idempotent. -/
theorem clusterizeAbs_idem (N : Nat) (key : Nat → Nat) (c : List Nat) :
    clusterizeAbs N key (clusterizeAbs N key c) = clusterizeAbs N key c := by
  conv_lhs => rw [clusterizeAbs]
  conv_rhs => rw [clusterizeAbs]
  rw [List.flatMap_def, List.flatMap_def]
  congr 1
  refine List.map_congr_left (fun k hk => ?_)
  exact clusterizeAbs_filter (List.mem_range.mp hk) key c

/-- Representation of one cluster cell of ListNode::clusterize: a null
cell stands for the empty bucket; a (first, last) pair stands for a
non-empty bucket chain with those endpoints. -/
def bucketRep (s : St) : Option (Nat × Nat) → List Nat → Prop
  | none, bk => bk = []
  | some fl, bk => bk ≠ [] ∧ bk.head? = some fl.1 ∧ bk.getLast? = some fl.2 ∧
      dlseg s none bk none

theorem bucketRep_mono {s s' : St} {cl : Option (Nat × Nat)} {bk : List Nat}
    (hagree : ∀ m ∈ bk, s' m = s m) (h : bucketRep s cl bk) :
    bucketRep s' cl bk := by
  cases cl with
  | none => exact h
  | some fl => exact ⟨h.1, h.2.1, h.2.2.1, dlseg_mono hagree h.2.2.2⟩

/-- Removing the first node of a chain: the tail stays a chain, the node
becomes unlinked, and only the node and the new head are written. -/
theorem removeN_head {s : St} {cur : Nat} {r2 : List Nat}
    (hd : dlseg s none (cur :: r2) none) (hcr : cur ∉ r2)
    (hndr : r2.Nodup) :
    dlseg (removeN s cur) none r2 none ∧
    removeN s cur cur = ⟨none, none⟩ ∧
    (∀ m, m ≠ cur → m ∉ r2 → removeN s cur m = s m) := by
  have hprev : (s cur).prev = none := (dlseg_cons.mp hd).1
  cases r2 with
  | nil =>
    have hnext : (s cur).next = none := (dlseg_cons.mp hd).2.1
    have hform : removeN s cur = setNode s cur ⟨none, none⟩ := by
      simp only [removeN, hprev, hnext]
    refine ⟨trivial, removeN_self s cur, fun m hm _ => ?_⟩
    rw [hform, setNode_other hm]
  | cons w vs =>
    have hnext : (s cur).next = some w := (dlseg_cons.mp hd).2.1
    have hv : dlseg s (some cur) (w :: vs) none := (dlseg_cons.mp hd).2.2
    have hform : removeN s cur = setNode (setPrev s w none) cur ⟨none, none⟩ := by
      simp only [removeN, hprev, hnext]
    have hwvs : w ∉ vs := (List.nodup_cons.mp hndr).1
    refine ⟨?_, removeN_self s cur, fun m hm hm2 => ?_⟩
    · rw [hform]
      have h1 : dlseg (setPrev s w none) none (w :: vs) none :=
        dlseg_set_head_prev hwvs hv
      refine dlseg_mono (fun m hm => ?_) h1
      exact setNode_other (ne_of_mem_of_not_mem hm hcr)
    · rw [hform, setNode_other hm,
        setPrev_other (not_mem_ne hm2 (List.mem_cons_self w vs))]

theorem mem_of_getLast?_eq {l : List Nat} {t : Nat}
    (h : l.getLast? = some t) : t ∈ l := by
  cases l with
  | nil => simp at h
  | cons x xs =>
    rw [getLast?_cons_eq] at h
    have := Option.some.inj h
    rw [← this]
    exact getLastD_mem x xs

theorem getD_set_self {l : List (Option (Nat × Nat))} {i : Nat}
    {a : Option (Nat × Nat)} (h : i < l.length) :
    (l.set i a).getD i none = a := by
  rw [List.getD_eq_getElem _ _ (by simpa using h)]
  simp [List.getElem_set]

theorem getD_set_ne {l : List (Option (Nat × Nat))} {i j : Nat}
    {a : Option (Nat × Nat)} (h : i ≠ j) :
    (l.set i a).getD j none = l.getD j none := by
  simp [List.getD, List.getElem?_set_ne h]

/-- Invariant of the distribution loop of ListNode::clusterize: after
processing the whole remaining chain r, every cluster cell holds exactly
the stable filter of the processed nodes by its key, as a proper chain,
and nothing outside the processed nodes is written. -/
theorem clusterizeLoop_spec (key : Nat → Nat) (N : Nat) :
    ∀ (r : List Nat) (fuel : Nat) (s : St) (done : List Nat)
      (cls : List (Option (Nat × Nat))),
      r.length ≤ fuel →
      (done ++ r).Nodup →
      (∀ m ∈ done ++ r, key m < N) →
      cls.length = N →
      (∀ k, k < N →
        bucketRep s (cls.getD k none) (done.filter (fun m => key m = k))) →
      dlseg s none r none →
      (clusterizeLoop key N fuel s r.head? cls).2.length = N ∧
      (∀ k, k < N →
        bucketRep (clusterizeLoop key N fuel s r.head? cls).1
          ((clusterizeLoop key N fuel s r.head? cls).2.getD k none)
          ((done ++ r).filter (fun m => key m = k))) ∧
      (∀ m, m ∉ done ++ r →
        (clusterizeLoop key N fuel s r.head? cls).1 m = s m) := by
  intro r
  induction r with
  | nil =>
    intro fuel s done cls _ _ _ hlen hbk _
    cases fuel with
    | zero =>
      refine ⟨hlen, fun k hk => ?_, fun m _ => rfl⟩
      simpa using hbk k hk
    | succ f =>
      refine ⟨hlen, fun k hk => ?_, fun m _ => rfl⟩
      simpa using hbk k hk
  | cons cur r2 ih =>
    intro fuel s done cls hfuel hnd hkey hlen hbk hd
    cases fuel with
    | zero => simp at hfuel
    | succ f =>
      have h1 := List.nodup_append.mp hnd
      have hcur_done : cur ∉ done := fun hc => h1.2.2 hc (List.mem_cons_self cur r2)
      have hcr : cur ∉ r2 := (List.nodup_cons.mp h1.2.1).1
      have hndr2 : r2.Nodup := (List.nodup_cons.mp h1.2.1).2
      have hdisj : done.Disjoint (cur :: r2) := h1.2.2
      have hnext : (s cur).next = r2.head? := (dlseg_cons.mp hd).2.1 |> fun hx => by
        cases r2 with
        | nil => exact hx
        | cons w vs => exact hx
      obtain ⟨hdr2, hcur0, hframe1⟩ := removeN_head hd hcr hndr2
      have hkc : key cur < N := hkey cur (by simp)
      -- buckets survive the removal
      have hbk1 : ∀ k, k < N →
          bucketRep (removeN s cur) (cls.getD k none)
            (done.filter (fun m => key m = k)) := by
        intro k hk
        refine bucketRep_mono (fun m hm => ?_) (hbk k hk)
        have hmd : m ∈ done := (List.filter_sublist done).mem hm
        exact hframe1 m (ne_of_mem_of_not_mem hmd hcur_done)
          (fun hm2 => hdisj hmd (List.mem_cons_of_mem cur hm2))
      have hstep : clusterizeLoop key N (f + 1) s (cur :: r2).head? cls =
          clusterizeLoop key N f
            (appendCluster (removeN s cur) (cls.getD (key cur) none) cur).1
            ((s cur).next)
            (cls.set (key cur)
              (some (appendCluster (removeN s cur)
                (cls.getD (key cur) none) cur).2)) := by
        simp only [List.head?_cons, clusterizeLoop]
      have hassoc : (done ++ [cur]) ++ r2 = done ++ cur :: r2 := by simp
      have hnd2 : ((done ++ [cur]) ++ r2).Nodup := by rw [hassoc]; exact hnd
      have hkey2 : ∀ m ∈ (done ++ [cur]) ++ r2, key m < N := by
        rw [hassoc]; exact hkey
      have hfuel2 : r2.length ≤ f := by
        simp only [List.length_cons] at hfuel; omega
      rcases hcl : cls.getD (key cur) none with _ | fl
      · -- empty cluster cell: the node becomes a singleton bucket
        have hbke : done.filter (fun m => key m = key cur) = [] := by
          have := hbk (key cur) hkc
          rw [hcl] at this
          exact this
        have happ : appendCluster (removeN s cur) (cls.getD (key cur) none) cur =
            (removeN s cur, (cur, cur)) := by rw [hcl]; rfl
        have hbk2 : ∀ k, k < N →
            bucketRep (removeN s cur)
              ((cls.set (key cur) (some (cur, cur))).getD k none)
              ((done ++ [cur]).filter (fun m => key m = k)) := by
          intro k hk
          by_cases hke : key cur = k
          · subst hke
            rw [getD_set_self (by rw [hlen]; exact hkc)]
            rw [List.filter_append, hbke, List.nil_append]
            have hfc : [cur].filter (fun m => key m = key cur) = [cur] := by simp
            rw [hfc]
            refine ⟨by simp, by simp, by simp, ?_⟩
            show (removeN s cur cur).prev = none ∧ (removeN s cur cur).next = none
            rw [hcur0]
            exact ⟨rfl, rfl⟩
          · rw [getD_set_ne hke]
            rw [List.filter_append]
            have hfc : [cur].filter (fun m => key m = k) = [] := by simp [hke]
            rw [hfc, List.append_nil]
            exact hbk1 k hk
        have := ih f (removeN s cur) (done ++ [cur])
          (cls.set (key cur) (some (cur, cur))) hfuel2 hnd2 hkey2
          (by rw [List.length_set]; exact hlen) hbk2 hdr2
        rw [hstep, happ, hnext]
        rw [hassoc] at this
        refine ⟨this.1, this.2.1, fun m hm => ?_⟩
        rw [this.2.2 m hm]
        exact hframe1 m
          (fun he => hm (by rw [he]; exact List.mem_append.mpr (Or.inr (by simp))))
          (fun h2 => hm (List.mem_append.mpr (Or.inr (List.mem_cons_of_mem cur h2))))
      · -- non-empty cluster cell: append the node after the cell tail
        have hbkfl := hbk (key cur) hkc
        rw [hcl] at hbkfl
        obtain ⟨hbne, hbhead, hblast, hbdl⟩ := hbkfl
        set bk := done.filter (fun m => key m = key cur) with hbk_def
        have hbk_sub : ∀ m ∈ bk, m ∈ done := fun m hm =>
          (List.filter_sublist done).mem hm
        have hbk_nodup : bk.Nodup := (List.filter_sublist done).nodup h1.1
        have hl_mem : fl.2 ∈ bk := mem_of_getLast?_eq hblast
        have hl_done : fl.2 ∈ done := hbk_sub fl.2 hl_mem
        have hl_cur : fl.2 ≠ cur := ne_of_mem_of_not_mem hl_done hcur_done
        have hcur_bk : cur ∉ bk := fun hc => hcur_done (hbk_sub cur hc)
        have hbdl1 : dlseg (removeN s cur) none bk none := by
          have := hbk1 (key cur) hkc
          rw [hcl] at this
          exact this.2.2.2
        have happ : appendCluster (removeN s cur) (cls.getD (key cur) none) cur =
            (setPrev (setNext (removeN s cur) fl.2 (some cur)) cur (some fl.2),
              (fl.1, cur)) := by rw [hcl]; rfl
        set s2 := setPrev (setNext (removeN s cur) fl.2 (some cur)) cur
          (some fl.2) with hs2
        have hcur_val : s2 cur = ⟨some fl.2, none⟩ := by
          rw [hs2, setPrev_same, setNext_other hl_cur.symm.symm.symm, hcur0]
        have hdbk2 : dlseg s2 none (bk ++ [cur]) none := by
          have h2 : dlseg (setNext (removeN s cur) fl.2 (some cur)) none bk
              (some cur) := dlseg_set_last_next hblast hbk_nodup hbdl1
          have h3 : dlseg s2 none bk (some cur) := by
            rw [hs2]
            exact dlseg_mono (fun m hm => setPrev_other
              (ne_of_mem_of_not_mem hm hcur_bk)) h2
          refine (dlseg_append hblast cur []).mpr ⟨h3, ?_, ?_⟩
          · rw [hcur_val]
          · rw [hcur_val]
        have hbk2 : ∀ k, k < N →
            bucketRep s2 ((cls.set (key cur) (some (fl.1, cur))).getD k none)
              ((done ++ [cur]).filter (fun m => key m = k)) := by
          intro k hk
          by_cases hke : key cur = k
          · subst hke
            rw [getD_set_self (by rw [hlen]; exact hkc)]
            rw [List.filter_append]
            have hfc : [cur].filter (fun m => key m = key cur) = [cur] := by simp
            rw [hfc, ← hbk_def]
            refine ⟨by simp, ?_, by rw [List.getLast?_concat], hdbk2⟩
            rw [List.head?_append_of_ne_nil bk hbne]
            exact hbhead
          · rw [getD_set_ne hke]
            rw [List.filter_append]
            have hfc : [cur].filter (fun m => key m = k) = [] := by simp [hke]
            rw [hfc, List.append_nil]
            refine bucketRep_mono (fun m hm => ?_) (hbk1 k hk)
            have hkm : key m = k := by
              have := (List.mem_filter.mp hm).2
              simpa using this
            have hm_l : m ≠ fl.2 := fun he => by
              have : key fl.2 = key cur := by
                have := (List.mem_filter.mp hl_mem).2
                simpa using this
              rw [he] at hkm
              exact hke (by omega)
            have hm_cur : m ≠ cur :=
              ne_of_mem_of_not_mem ((List.filter_sublist done).mem hm) hcur_done
            rw [hs2, setPrev_other hm_cur, setNext_other hm_l]
        have hdr2b : dlseg s2 none r2 none := by
          rw [hs2]
          refine dlseg_mono (fun m hm => ?_) hdr2
          have hm_cur : m ≠ cur := ne_of_mem_of_not_mem hm hcr |> fun hx =>
            (fun he => hcr (by rw [← he]; exact hm))
          have hm_l : m ≠ fl.2 := fun he =>
            hdisj hl_done (by rw [← he]; exact List.mem_cons_of_mem cur hm)
          rw [setPrev_other hm_cur, setNext_other hm_l]
        have := ih f s2 (done ++ [cur]) (cls.set (key cur) (some (fl.1, cur)))
          hfuel2 hnd2 hkey2 (by rw [List.length_set]; exact hlen) hbk2 hdr2b
        rw [hstep, happ, hnext]
        rw [hassoc] at this
        refine ⟨this.1, this.2.1, fun m hm => ?_⟩
        rw [this.2.2 m hm]
        have hm_cur : m ≠ cur :=
          fun he => hm (by rw [he]; exact List.mem_append.mpr (Or.inr (by simp)))
        have hm_r2 : m ∉ r2 :=
          fun h2 => hm (List.mem_append.mpr (Or.inr (List.mem_cons_of_mem cur h2)))
        have hm_l : m ≠ fl.2 :=
          fun he => hm (by rw [he]; exact List.mem_append.mpr (Or.inl hl_done))
        rw [hs2, setPrev_other hm_cur, setNext_other hm_l]
        exact hframe1 m hm_cur hm_r2

theorem mem_of_head?_eq {l : List Nat} {a : Nat} (h : l.head? = some a) :
    a ∈ l := by
  cases l with
  | nil => simp at h
  | cons x xs =>
    have : a = x := by simpa using h.symm
    rw [this]; exact List.mem_cons_self x xs

theorem eq_cons_of_head?_eq {l : List Nat} {a : Nat} (h : l.head? = some a) :
    l = a :: l.tail := by
  cases l with
  | nil => simp at h
  | cons x xs =>
    have : x = a := by simpa using h
    rw [this]; rfl

theorem forall₂_bucketRep_mono {s s' : St} :
    ∀ {cls : List (Option (Nat × Nat))} {bks : List (List Nat)},
      List.Forall₂ (bucketRep s) cls bks →
      (∀ m ∈ bks.flatten, s' m = s m) →
      List.Forall₂ (bucketRep s') cls bks := by
  intro cls bks h
  induction h with
  | nil => intro _; exact List.Forall₂.nil
  | cons hR hrest ih =>
    intro hagree
    simp only [List.flatten_cons] at hagree
    refine List.Forall₂.cons
      (bucketRep_mono (fun m hm => hagree m (List.mem_append.mpr (Or.inl hm))) hR)
      (ih (fun m hm => hagree m (List.mem_append.mpr (Or.inr hm))))

/-- Invariant of the concatenation loop of ListNode::clusterize: it links
the non-empty clusters, in order, after the accumulated list, producing
one chain that is their concatenation, and writes only inside them. -/
theorem concatClusters_spec :
    ∀ (cls : List (Option (Nat × Nat))) (bks : List (List Nat)) (s : St)
      (acc : Option (Nat × Nat)) (accL : List Nat),
      List.Forall₂ (bucketRep s) cls bks →
      bucketRep s acc accL →
      (accL ++ bks.flatten).Nodup →
      bucketRep (concatClusters s acc cls).1 (concatClusters s acc cls).2
        (accL ++ bks.flatten) ∧
      (∀ m, m ∉ accL ++ bks.flatten → (concatClusters s acc cls).1 m = s m) := by
  intro cls
  induction cls with
  | nil =>
    intro bks s acc accL hf hacc _
    cases hf
    simp only [List.flatten_nil, List.append_nil]
    exact ⟨hacc, fun m _ => rfl⟩
  | cons cl cls2 ih =>
    intro bks s acc accL hf hacc hnd
    cases hf with
    | cons hR hrest =>
      rename_i bk bks2
      cases cl with
      | none =>
        have hbk : bk = [] := hR
        subst hbk
        simp only [List.flatten_cons, List.nil_append]
        simp only [List.flatten_cons, List.nil_append] at hnd
        exact ih bks2 s acc accL hrest hacc hnd
      | some fl =>
        obtain ⟨hbne, hbhead, hblast, hbdl⟩ := hR
        cases acc with
        | none =>
          have haccL : accL = [] := hacc
          subst haccL
          simp only [List.flatten_cons, List.nil_append]
          simp only [List.flatten_cons, List.nil_append] at hnd
          have := ih bks2 s (some fl) bk hrest ⟨hbne, hbhead, hblast, hbdl⟩ hnd
          exact ⟨this.1, this.2⟩
        | some g =>
          obtain ⟨hane, hahead, halast, hadl⟩ := hacc
          simp only [List.flatten_cons] at hnd ⊢
          have hnd2 := hnd
          rw [← List.append_assoc] at hnd2
          have hp1 := List.nodup_append.mp hnd2
          have hnd_ab : (accL ++ bk).Nodup := hp1.1
          have hdisj_ab_fl : (accL ++ bk).Disjoint bks2.flatten := hp1.2.2
          have hp2 := List.nodup_append.mp hnd_ab
          have hnd_acc : accL.Nodup := hp2.1
          have hnd_bk : bk.Nodup := hp2.2.1
          have hdisj_ab : accL.Disjoint bk := hp2.2.2
          have hgl_mem : g.2 ∈ accL := mem_of_getLast?_eq halast
          have hf1_mem : fl.1 ∈ bk := mem_of_head?_eq hbhead
          have hf1_acc : fl.1 ∉ accL := fun hc => hdisj_ab hc hf1_mem
          have hgl_bk : g.2 ∉ bk := fun hc => hdisj_ab hgl_mem hc
          have hbkcons : bk = fl.1 :: bk.tail := eq_cons_of_head?_eq hbhead
          have hf1_tail : fl.1 ∉ bk.tail := by
            have h2 := hnd_bk
            rw [hbkcons] at h2
            exact (List.nodup_cons.mp h2).1
          have h1 : dlseg (setNext s g.2 (some fl.1)) none accL (some fl.1) :=
            dlseg_set_last_next halast hnd_acc hadl
          have h2 : dlseg (setPrev (setNext s g.2 (some fl.1)) fl.1 (some g.2))
              none accL (some fl.1) :=
            dlseg_mono (fun m hm => setPrev_other
              (ne_of_mem_of_not_mem hm (fun hc => hdisj_ab hc hf1_mem)).symm.symm) h1
          have h3 : dlseg (setNext s g.2 (some fl.1)) none bk none :=
            dlseg_mono (fun m hm => setNext_other
              (ne_of_mem_of_not_mem hm hgl_bk).symm.symm) hbdl
          have h3b : dlseg (setNext s g.2 (some fl.1)) none (fl.1 :: bk.tail)
              none := by
            rw [← hbkcons]; exact h3
          have h4 : dlseg (setPrev (setNext s g.2 (some fl.1)) fl.1 (some g.2))
              (some g.2) bk none := by
            rw [hbkcons]
            exact dlseg_set_head_prev hf1_tail h3b
          have h5 : dlseg (setPrev (setNext s g.2 (some fl.1)) fl.1 (some g.2))
              none (accL ++ bk) none := by
            rw [hbkcons]
            refine (dlseg_append halast fl.1 bk.tail).mpr ⟨h2, ?_⟩
            rw [← hbkcons]
            exact h4
          have hacc2 : bucketRep
              (setPrev (setNext s g.2 (some fl.1)) fl.1 (some g.2))
              (some (g.1, fl.2)) (accL ++ bk) := by
            refine ⟨by simp [hane], ?_, ?_, h5⟩
            · rw [List.head?_append_of_ne_nil accL hane]
              exact hahead
            · rw [List.getLast?_append, hblast]
              rfl
          have hrest2 : List.Forall₂ (bucketRep
              (setPrev (setNext s g.2 (some fl.1)) fl.1 (some g.2))) cls2 bks2 := by
            refine forall₂_bucketRep_mono hrest (fun m hm => ?_)
            have hm_f1 : m ≠ fl.1 := fun he => hdisj_ab_fl
              (by rw [he]; exact List.mem_append.mpr (Or.inr hf1_mem)) hm
            have hm_gl : m ≠ g.2 := fun he => hdisj_ab_fl
              (by rw [he]; exact List.mem_append.mpr (Or.inl hgl_mem)) hm
            rw [setPrev_other hm_f1, setNext_other hm_gl]
          have hnd3 : ((accL ++ bk) ++ bks2.flatten).Nodup := hnd2
          have := ih bks2 (setPrev (setNext s g.2 (some fl.1)) fl.1 (some g.2))
            (some (g.1, fl.2)) (accL ++ bk) hrest2 hacc2 hnd3
          have hcc : concatClusters s (some g) (some fl :: cls2) =
              concatClusters
                (setPrev (setNext s g.2 (some fl.1)) fl.1 (some g.2))
                (some (g.1, fl.2)) cls2 := by
            simp only [concatClusters]
          rw [hcc]
          rw [← List.append_assoc]
          refine ⟨this.1, fun m hm => ?_⟩
          rw [this.2 m hm]
          have hm_f1 : m ≠ fl.1 := fun he => hm (by
            rw [he]
            exact List.mem_append.mpr (Or.inl (List.mem_append.mpr (Or.inr hf1_mem))))
          have hm_gl : m ≠ g.2 := fun he => hm (by
            rw [he]
            exact List.mem_append.mpr (Or.inl (List.mem_append.mpr (Or.inl hgl_mem))))
          rw [setPrev_other hm_f1, setNext_other hm_gl]

theorem getD_replicate_none {N k : Nat} :
    (List.replicate N (none : Option (Nat × Nat))).getD k none = none := by
  rcases Nat.lt_or_ge k N with hk | hk
  · rw [List.getD_eq_getElem _ _ (by simpa using hk)]
    simp
  · rw [List.getD_eq_default _ _ (by simpa using hk)]

/-- ListNode::clusterize re-partitions the entire chain containing the
node into the stable bucket concatenation clusterizeAbs, leaving every
other chain and every outside node untouched. -/
theorem clusterize_refines {s : St} {c : List Nat} {rest : List (List Nat)}
    (h : Realizes s (c :: rest)) {n : Nat} (hn : n ∈ c)
    (key : Nat → Nat) {N : Nat} (hkey : ∀ m ∈ c, key m < N)
    {fuel : Nat} (hf : c.length ≤ fuel) :
    Realizes (clusterize s fuel n key N) (clusterizeAbs N key c :: rest) ∧
    (∀ m, m ∉ c → clusterize s fuel n key N m = s m) := by
  obtain ⟨hnd, hne, hsg⟩ := h
  have hdc : dlseg s none c none := hsg c (by simp)
  have hnd2 : (c ++ rest.flatten).Nodup := by simpa using hnd
  have hcnd : c.Nodup := (List.nodup_append.mp hnd2).1
  have hdisjfl : c.Disjoint rest.flatten := (List.nodup_append.mp hnd2).2.2
  have hcne : c ≠ [] := List.ne_nil_of_mem hn
  -- the starting point of the loop is the chain head
  obtain ⟨u, v, huv⟩ := List.append_of_mem hn
  have hlu : u.length < c.length := by
    rw [huv]; simp only [List.length_append, List.length_cons]; omega
  have hh : headP s fuel n = c.headI :=
    (headP_eq u n v fuel (huv ▸ hdc) (by omega)).trans (by rw [huv])
  have hch : c.head? = some c.headI := by
    cases c with
    | nil => exact absurd rfl hcne
    | cons x xs => rfl
  -- distribution loop
  have hloop := clusterizeLoop_spec key N c fuel s [] (List.replicate N none)
    hf (by simpa using hcnd) (by simpa using hkey)
    (by simp)
    (fun k hk => by rw [getD_replicate_none]; rfl)
    hdc
  simp only [List.nil_append] at hloop
  set s1 := (clusterizeLoop key N fuel s c.head? (List.replicate N none)).1
    with hs1
  set cls1 := (clusterizeLoop key N fuel s c.head? (List.replicate N none)).2
    with hcls1
  -- abstract buckets
  set bks := (List.range N).map (fun k => c.filter (fun m => key m = k))
    with hbks
  have hflat : bks.flatten = clusterizeAbs N key c := by
    rw [hbks, clusterizeAbs, List.flatMap_def]
  have hperm : (clusterizeAbs N key c).Perm c := clusterizeAbs_perm hkey
  have hfa : List.Forall₂ (bucketRep s1) cls1 bks := by
    rw [hbks, List.forall₂_iff_get]
    refine ⟨by rw [List.length_map, List.length_range, hloop.1], ?_⟩
    intro i h1 h2
    have hiN : i < N := by simpa using h2
    have hget1 : cls1.get ⟨i, h1⟩ = cls1.getD i none := by
      rw [List.getD_eq_getElem _ _ h1]
      rfl
    have hget2 : (List.map (fun k => List.filter (fun m => decide (key m = k)) c)
        (List.range N)).get ⟨i, h2⟩ = c.filter (fun m => key m = i) := by
      simp [List.get_eq_getElem, List.getElem_map, List.getElem_range]
    rw [hget1, hget2]
    exact hloop.2.1 i hiN
  have hnd3 : ([] ++ bks.flatten).Nodup := by
    rw [List.nil_append, hflat]
    exact (hperm.nodup_iff).mpr hcnd
  have hconcat := concatClusters_spec cls1 bks s1 none [] hfa rfl hnd3
  simp only [List.nil_append] at hconcat
  rw [hflat] at hconcat
  -- identify the clusterize result
  have hcl_eq : clusterize s fuel n key N = (concatClusters s1 none cls1).1 := by
    simp only [clusterize, hh]
    rw [← hch]
  have habs_ne : clusterizeAbs N key c ≠ [] :=
    List.ne_nil_of_mem (hperm.mem_iff.mpr hn)
  have hdabs : dlseg (concatClusters s1 none cls1).1 none
      (clusterizeAbs N key c) none := by
    rcases hacc2 : (concatClusters s1 none cls1).2 with _ | fl
    · have := hconcat.1
      rw [hacc2] at this
      exact absurd this habs_ne
    · have := hconcat.1
      rw [hacc2] at this
      exact this.2.2.2
  have hframe : ∀ m, m ∉ c → clusterize s fuel n key N m = s m := by
    intro m hm
    rw [hcl_eq, hconcat.2 m (fun hc => hm (hperm.mem_iff.mp hc)),
      hloop.2.2 m hm]
  refine ⟨⟨?_, ?_, ?_⟩, hframe⟩
  · simp only [List.flatten_cons]
    refine ((hperm.append_right rest.flatten).nodup_iff).mpr ?_
    simpa using hnd
  · intro d hd
    rcases List.mem_cons.mp hd with he | hd2
    · subst he; exact habs_ne
    · exact hne d (by simp [hd2])
  · intro d hd
    rcases List.mem_cons.mp hd with he | hd2
    · subst he
      rw [hcl_eq]
      exact hdabs
    · have hdl := hsg d (by simp [hd2])
      refine dlseg_mono (fun m hm => ?_) hdl
      have hmc : m ∉ c := fun hc =>
        hdisjfl hc (List.mem_flatten.mpr ⟨d, hd2, hm⟩)
      exact hframe m hmc

/-- Event::operator>> on ports of two distinct topics: merge splices the
two chains, then clusterize re-partitions the combined chain stably by
key.  No outside node is touched. -/
theorem link_refines {s : St} {ca cb : List Nat} {rest : List (List Nat)}
    (h : Realizes s (ca :: cb :: rest)) {a b : Nat} (ha : a ∈ ca) (hb : b ∈ cb)
    (key : Nat → Nat) (hkey : ∀ m ∈ ca ++ cb, key m < 2)
    {fuel : Nat} (hf : ca.length + cb.length ≤ fuel) :
    Realizes (link s fuel a b key) (clusterizeAbs 2 key (ca ++ cb) :: rest) ∧
    (∀ m, m ∉ ca ++ cb → link s fuel a b key m = s m) := by
  have hca_len : ca.length ≤ fuel := by
    have := List.length_append ca cb
    omega
  have hcb_len : cb.length ≤ fuel := by omega
  obtain ⟨hm1, hm2⟩ := merge_refines h ha hb hca_len hcb_len
  have hlen2 : (ca ++ cb).length ≤ fuel := by
    rw [List.length_append]; omega
  have hmem : a ∈ ca ++ cb := List.mem_append.mpr (Or.inl ha)
  -- the head computed after the merge is a member of the merged chain
  obtain ⟨u, v, huv⟩ := List.append_of_mem hmem
  have hdm : dlseg (merge s fuel a (some b)) none (ca ++ cb) none :=
    hm1.2.2 (ca ++ cb) (by simp)
  have hlu : u.length < (ca ++ cb).length := by
    rw [huv]; simp only [List.length_append, List.length_cons]; omega
  have hh : headP (merge s fuel a (some b)) fuel a = (ca ++ cb).headI :=
    (headP_eq u a v fuel (huv ▸ hdm) (by omega)).trans (by rw [huv])
  have hmemh : headP (merge s fuel a (some b)) fuel a ∈ ca ++ cb := by
    rw [hh]
    exact headI_mem (by rw [huv]; simp)
  obtain ⟨hc1, hc2⟩ := clusterize_refines hm1 hmemh key hkey hlen2
  have hlink : link s fuel a b key =
      clusterize (merge s fuel a (some b)) fuel
        (headP (merge s fuel a (some b)) fuel a) key 2 := rfl
  rw [hlink]
  refine ⟨hc1, fun m hm => ?_⟩
  rw [hc2 m hm, hm2 m (fun hc => hm (List.mem_append.mpr (Or.inl hc)))
    (fun hc => hm (List.mem_append.mpr (Or.inr hc)))]

/-- Event::operator>> on two ports already in the same topic: merge is a
no-op, and the link just re-clusterizes the chain in place. -/
theorem link_same_chain {s : St} {c : List Nat} {rest : List (List Nat)}
    (h : Realizes s (c :: rest)) {a b : Nat} (ha : a ∈ c) (hb : b ∈ c)
    (key : Nat → Nat) (hkey : ∀ m ∈ c, key m < 2)
    {fuel : Nat} (hf : c.length ≤ fuel) :
    Realizes (link s fuel a b key) (clusterizeAbs 2 key c :: rest) ∧
    (∀ m, m ∉ c → link s fuel a b key m = s m) := by
  have hmerge : merge s fuel a (some b) = s := merge_same_chain h ha hb hf
  obtain ⟨u, v, huv⟩ := List.append_of_mem ha
  have hdc : dlseg s none c none := h.2.2 c (by simp)
  have hlu : u.length < c.length := by
    rw [huv]; simp only [List.length_append, List.length_cons]; omega
  have hh : headP s fuel a = c.headI :=
    (headP_eq u a v fuel (huv ▸ hdc) (by omega)).trans (by rw [huv])
  have hmemh : headP s fuel a ∈ c := by
    rw [hh]
    exact headI_mem (List.ne_nil_of_mem ha)
  obtain ⟨hc1, hc2⟩ := clusterize_refines h hmemh key hkey hf
  have hlink : link s fuel a b key =
      clusterize s fuel (headP s fuel a) key 2 := by
    show clusterize (merge s fuel a (some b)) fuel
      (headP (merge s fuel a (some b)) fuel a) key 2 = _
    rw [hmerge]
  rw [hlink]
  exact ⟨hc1, hc2⟩

/-- With two buckets, the abstract clusterize is the key-0 nodes followed
by the key-1 nodes, each in original order. -/
theorem clusterizeAbs_two (key : Nat → Nat) (l : List Nat) :
    clusterizeAbs 2 key l =
      l.filter (fun m => key m = 0) ++ l.filter (fun m => key m = 1) := by
  have hr : List.range 2 = [0, 1] := by decide
  rw [clusterizeAbs, hr]
  simp

/-- Event::operator() visits exactly the nodes after the event in its
chain, in chain order. -/
theorem fireTrace_eq {s : St} {u : List Nat} {ev : Nat} {v : List Nat}
    (hd : dlseg s none (u ++ ev :: v) none) {fuel : Nat}
    (hf : v.length ≤ fuel) : fireTrace s fuel ev = v := by
  have hnext : (s ev).next = v.head? := dlseg_next_at hd
  have hv : dlseg s ((s ev).prev) (ev :: v) none := by
    rcases u with _ | ⟨x, xs⟩
    · rw [List.nil_append] at hd
      have h1 := (dlseg_cons.mp hd).1
      rw [h1]
      exact hd
    · have hlast : (x :: xs).getLast? = some (xs.getLastD x) := getLast?_cons_eq x xs
      rw [dlseg_append hlast ev v] at hd
      have h1 := (dlseg_cons.mp hd.2).1
      rw [h1]
      exact hd.2
  have hv2 : dlseg s (some ev) v none := (dlseg_cons.mp hv).2.2
  rw [fireTrace, hnext]
  exact nextTrace_eq hv2 hf

/-- A concrete callable target for ramen::Function: its byte size, its
alignment, and the mathematical function it computes when invoked. -/
structure FnTarget (α β : Type) where
  size : Nat
  align : Nat
  run : α → β

/-- Model of detail::IsValidTarget, the compile-time constraint checked by
the SFINAE guard is_valid_target_v: sizeof(T) <= footprint and
alignof(T) <= alignment (invocability and move-constructibility are
inherent in the model of the target). -/
def isValidTarget {α β : Type} (footprint alignment : Nat)
    (t : FnTarget α β) : Prop :=
  t.size ≤ footprint ∧ t.align ≤ alignment

instance {α β : Type} (footprint alignment : Nat) (t : FnTarget α β) :
    Decidable (isValidTarget footprint alignment t) :=
  inferInstanceAs (Decidable (_ ∧ _))

/-- Model of ramen::Function: the inline byte buffer together with the
three captured pointers call_/dtor_/move_ is abstracted into an optional
held target; none models call_ == dtor_ == move_ == nullptr, which is the
state after default construction, after being moved from, and after
destroy(). -/
structure Fn (α β : Type) (footprint alignment : Nat) where
  target : Option (FnTarget α β)

/-- Model of the constructor Function(F&& fun), available only when
is_valid_target_v holds: the target is placement-constructed in the
buffer and the three pointers are captured. -/
def Fn.construct {α β : Type} (footprint alignment : Nat) (t : FnTarget α β)
    (_ : isValidTarget footprint alignment t) : Fn α β footprint alignment :=
  ⟨some t⟩

/-- Model of Function() noexcept = default: all pointers null. -/
def Fn.empty (α β : Type) (footprint alignment : Nat) :
    Fn α β footprint alignment :=
  ⟨none⟩

/-- Model of Function::destroy(): the target is destroyed and all three
pointers are nulled. -/
def Fn.destroy {α β : Type} {footprint alignment : Nat}
    (_ : Fn α β footprint alignment) : Fn α β footprint alignment :=
  ⟨none⟩

/-- Model of explicit operator bool(): call_ != nullptr. -/
def Fn.toBool {α β : Type} {footprint alignment : Nat}
    (f : Fn α β footprint alignment) : Bool :=
  f.target.isSome

/-- Result of one invocation of the holder: the assertion
assert(call_ != nullptr ...) fires, or the stored target runs. -/
inductive CallRes (β : Type) where
  | assertFail
  | ok (val : β)
deriving DecidableEq

/-- Model of Function::operator(): assert(call_ != nullptr), then dispatch
through the stored call_ pointer into the buffer. -/
def Fn.call {α β : Type} {footprint alignment : Nat}
    (f : Fn α β footprint alignment) (a : α) : CallRes β :=
  match f.target with
  | none => CallRes.assertFail
  | some t => CallRes.ok (t.run a)

/-- Model of the move constructor Function(Function&& that): the three
pointers are copied; when move_ is non-null the target is
move-constructed into the destination buffer and the source pointers are
nulled (when move_ is null the source was already empty and stays so).
Returns (destination, source after the move). -/
def Fn.moveCtor {α β : Type} {footprint alignment : Nat}
    (that : Fn α β footprint alignment) :
    Fn α β footprint alignment × Fn α β footprint alignment :=
  match that.target with
  | none => (⟨none⟩, ⟨none⟩)
  | some t => (⟨some t⟩, ⟨none⟩)

instance realizesDecidable (s : St) (cs : List (List Nat)) :
    Decidable (Realizes s cs) :=
  inferInstanceAs (Decidable (_ ∧ _ ∧ _))

/-- Symmetry of the link relation over the nodes of a decomposition. -/
def SymLinks (s : St) (dom : List Nat) : Prop :=
  ∀ a ∈ dom, ∀ b,
    ((s a).next = some b → (s b).prev = some a) ∧
    ((s a).prev = some b → (s b).next = some a)

/-- Acyclicity: no node reaches itself by following next_ pointers. -/
def AcyclicLinks (s : St) (dom : List Nat) : Prop :=
  ∀ a ∈ dom, ∀ fuel, a ∉ nextTrace s fuel ((s a).next)

theorem nextTrace_subset {s : St} :
    ∀ {v : List Nat} {pr : Option Nat}, dlseg s pr v none →
      ∀ fuel, ∀ x ∈ nextTrace s fuel v.head?, x ∈ v := by
  intro v
  induction v with
  | nil =>
    intro pr _ fuel x hx
    cases fuel with
    | zero => simp [nextTrace] at hx
    | succ f => simp [nextTrace] at hx
  | cons w v2 ih =>
    intro pr hd fuel x hx
    cases fuel with
    | zero => simp [nextTrace] at hx
    | succ f =>
      simp only [List.head?_cons, nextTrace] at hx
      rcases List.mem_cons.mp hx with he | hx2
      · rw [he]; exact List.mem_cons_self w v2
      · have hnext : (s w).next = v2.head? := by
          have := (dlseg_cons.mp hd).2.1
          cases v2 with
          | nil => exact this
          | cons m r => exact this
        rw [hnext] at hx2
        exact List.mem_cons_of_mem w (ih (dlseg_cons.mp hd).2.2 f x hx2)

/-- A realized state has a symmetric link relation over its nodes. -/
theorem realizes_sym {s : St} {cs : List (List Nat)} (h : Realizes s cs) :
    SymLinks s cs.flatten := by
  intro a ha b
  obtain ⟨c, hc, hac⟩ := List.mem_flatten.mp ha
  have hdc : dlseg s none c none := h.2.2 c hc
  obtain ⟨u, v, huv⟩ := List.append_of_mem hac
  have hnext : (s a).next = v.head? := dlseg_next_at (huv ▸ hdc)
  have hprev : (s a).prev = u.getLast? := dlseg_prev_at (huv ▸ hdc)
  constructor
  · intro hb
    rw [hnext] at hb
    have hvcons : v = b :: v.tail := eq_cons_of_head?_eq hb
    have hd2 : dlseg s none ((u ++ [a]) ++ b :: v.tail) none := by
      have : (u ++ [a]) ++ b :: v.tail = u ++ a :: v := by
        rw [← hvcons]; simp
      rw [this, ← huv]
      exact hdc
    have := dlseg_prev_at hd2
    rw [this]
    rw [List.getLast?_concat]
  · intro hb
    rw [hprev] at hb
    have hb_mem : b ∈ u := mem_of_getLast?_eq hb
    obtain ⟨u2, u3, hu23⟩ := List.append_of_mem hb_mem
    have hu3 : u3 = [] := by
      rcases u3 with _ | ⟨y, ys⟩
      · rfl
      · exfalso
        have : u.getLast? = (y :: ys).getLast? := by
          rw [hu23, List.getLast?_append_cons]
          rw [List.getLast?_cons_cons]
        rw [this] at hb
        have hy_mem : b ∈ y :: ys := mem_of_getLast?_eq hb
        have hnd2 : u.Nodup := by
          have hcnd : c.Nodup := by
            have := h.1
            have hsub : c.Sublist cs.flatten := List.sublist_flatten_of_mem hc
            exact hsub.nodup this
          rw [huv] at hcnd
          exact (List.nodup_append.mp hcnd).1
        rw [hu23] at hnd2
        have := List.nodup_append.mp hnd2
        exact (List.nodup_cons.mp this.2.1).1 hy_mem
    have hd2 : dlseg s none (u2 ++ b :: (a :: v)) none := by
      have : u2 ++ b :: (a :: v) = u ++ a :: v := by
        rw [hu23, hu3]
        simp
      rw [this, ← huv]
      exact hdc
    have := dlseg_next_at hd2
    rw [this]
    rfl

/-- A realized state is acyclic along next_ pointers. -/
theorem realizes_acyclic {s : St} {cs : List (List Nat)} (h : Realizes s cs) :
    AcyclicLinks s cs.flatten := by
  intro a ha fuel
  obtain ⟨c, hc, hac⟩ := List.mem_flatten.mp ha
  have hdc : dlseg s none c none := h.2.2 c hc
  obtain ⟨u, v, huv⟩ := List.append_of_mem hac
  have hnext : (s a).next = v.head? := dlseg_next_at (huv ▸ hdc)
  have hv : dlseg s (some a) v none := by
    have h2 : dlseg s ((s a).prev) (a :: v) none := by
      rcases u with _ | ⟨x, xs⟩
      · rw [huv] at hdc
        rw [List.nil_append] at hdc
        rw [(dlseg_cons.mp hdc).1]
        exact hdc
      · rw [huv] at hdc
        have hlast : (x :: xs).getLast? = some (xs.getLastD x) :=
          getLast?_cons_eq x xs
        rw [dlseg_append hlast a v] at hdc
        rw [(dlseg_cons.mp hdc.2).1]
        exact hdc.2
    exact (dlseg_cons.mp h2).2.2
  intro hmem
  rw [hnext] at hmem
  have hav : a ∈ v := nextTrace_subset hv fuel a hmem
  have hcnd : c.Nodup := by
    have hsub : c.Sublist cs.flatten := List.sublist_flatten_of_mem hc
    exact hsub.nodup h.1
  rw [huv] at hcnd
  have := (List.nodup_append.mp hcnd).2.1
  exact (List.nodup_cons.mp this).1 hav

theorem filter_ne_of_not_mem {n : Nat} {l : List Nat} (h : n ∉ l) :
    l.filter (fun x => x ≠ n) = l := by
  refine List.filter_eq_self.mpr (fun a ha => ?_)
  have : a ≠ n := ne_of_mem_of_not_mem ha h
  simpa using this

/-- C1: after every link operation (Event::operator>>), within the
connected topic all nodes with key 0 (Events) are ordered before all
nodes with key 1 (Behaviors), with the original relative order preserved
among nodes of the same key — both when the link joins two distinct
topics (first conjunct) and when the two ports already share a topic
(second conjunct). -/
theorem C1_link_orders_events_before_behaviors
    {s : St} {ca cb : List Nat} {rest : List (List Nat)}
    (h : Realizes s (ca :: cb :: rest)) {a b : Nat}
    (ha : a ∈ ca) (hb : b ∈ cb) (κ : Nat → PortKind)
    {fuel : Nat} (hf : ca.length + cb.length ≤ fuel) :
    Realizes (link s fuel a b (fun m => kindKey (κ m)))
      (((ca ++ cb).filter (fun m => kindKey (κ m) = 0) ++
        (ca ++ cb).filter (fun m => kindKey (κ m) = 1)) :: rest) ∧
    (∀ (c : List Nat) (rest2 : List (List Nat)) (x y : Nat),
      Realizes s (c :: rest2) → x ∈ c → y ∈ c → c.length ≤ fuel →
      Realizes (link s fuel x y (fun m => kindKey (κ m)))
        ((c.filter (fun m => kindKey (κ m) = 0) ++
          c.filter (fun m => kindKey (κ m) = 1)) :: rest2)) := by
  have hkind : ∀ (l : List Nat), ∀ m ∈ l, kindKey (κ m) < 2 := by
    intro l m _
    cases κ m <;> simp [kindKey]
  constructor
  · have h2 := (link_refines h ha hb (fun m => kindKey (κ m))
      (hkind (ca ++ cb)) hf).1
    rwa [clusterizeAbs_two] at h2
  · intro c rest2 x y hr hx hy hlen
    have h2 := (link_same_chain hr hx hy (fun m => kindKey (κ m))
      (hkind c) hlen).1
    rwa [clusterizeAbs_two] at h2

/-- C2: firing an Event (Event::operator()) calls trigger exactly once on
each node after the Event in its chain, in chain order, passing the same
arguments to every node; it visits no node at or before the Event, and
the Event's own trigger member is a no-op. -/
theorem C2_event_fire_visits_suffix {α : Type}
    {s : St} {u : List Nat} {ev : Nat} {v : List Nat} {rest : List (List Nat)}
    (h : Realizes s ((u ++ ev :: v) :: rest)) {fuel : Nat}
    (hf : v.length ≤ fuel) (args : α) :
    broadcastCalls s fuel ev args = v.map (fun n => (n, args)) ∧
    (fireTrace s fuel ev).Nodup ∧
    (∀ x ∈ u, x ∉ fireTrace s fuel ev) ∧
    ev ∉ fireTrace s fuel ev ∧
    eventTrigger args = () := by
  have hdc : dlseg s none (u ++ ev :: v) none := h.2.2 _ (by simp)
  have hft : fireTrace s fuel ev = v := fireTrace_eq hdc hf
  have hnd2 : ((u ++ ev :: v) ++ rest.flatten).Nodup := by simpa using h.1
  have hcnd : (u ++ ev :: v).Nodup := (List.nodup_append.mp hnd2).1
  have hp := List.nodup_append.mp hcnd
  have hvnd : v.Nodup := (List.nodup_cons.mp hp.2.1).2
  have hev_v : ev ∉ v := (List.nodup_cons.mp hp.2.1).1
  refine ⟨?_, ?_, ?_, ?_, rfl⟩
  · rw [broadcastCalls, hft]
  · rw [hft]; exact hvnd
  · intro x hx
    rw [hft]
    intro hxv
    exact hp.2.2 hx (List.mem_cons_of_mem ev hxv)
  · rw [hft]; exact hev_v

/-- C3: clusterize re-partitions the entire chain containing the node
into N buckets by key, stably (each bucket keeps its original relative
order), concatenating non-empty buckets in index order; the abstract
partition is idempotent, so clusterizing an already-clusterized chain
leaves the order unchanged. -/
theorem C3_clusterize_stable_partition_idempotent
    {s : St} {c : List Nat} {rest : List (List Nat)}
    (h : Realizes s (c :: rest)) {n : Nat} (hn : n ∈ c)
    (key : Nat → Nat) {N : Nat} (hkey : ∀ m ∈ c, key m < N)
    {fuel : Nat} (hf : c.length ≤ fuel) :
    Realizes (clusterize s fuel n key N) (clusterizeAbs N key c :: rest) ∧
    (∀ k, k < N → (clusterizeAbs N key c).filter (fun m => key m = k) =
      c.filter (fun m => key m = k)) ∧
    clusterizeAbs N key (clusterizeAbs N key c) = clusterizeAbs N key c ∧
    (clusterizeAbs N key c = c →
      Realizes (clusterize s fuel n key N) (c :: rest)) := by
  obtain ⟨h1, _⟩ := clusterize_refines h hn key hkey hf
  refine ⟨h1, fun k hk => clusterizeAbs_filter hk key c,
    clusterizeAbs_idem N key c, fun hfix => ?_⟩
  rwa [hfix] at h1

/-- C4: for every callable target fitting the declared footprint and
alignment, constructing a Function from it and invoking it returns the
same result as invoking the target directly; after a move-construction
the moved-from holder converts to false and the moved-to holder
reproduces the original result. -/
theorem C4_function_invoke_and_move {α β : Type} (footprint alignment : Nat)
    (t : FnTarget α β) (h : isValidTarget footprint alignment t) (a : α) :
    (Fn.construct footprint alignment t h).call a = CallRes.ok (t.run a) ∧
    (Fn.construct footprint alignment t h).moveCtor.2.toBool = false ∧
    (Fn.construct footprint alignment t h).moveCtor.1.call a =
      CallRes.ok (t.run a) :=
  ⟨rfl, rfl, rfl⟩

/-- C5: invoking a Function holding no target (default-constructed,
moved-from, or destroyed) fails fast through the assertion rather than
returning a value or invoking anything; when a target is held, the
assertion branch is unreachable and the stored target runs. -/
theorem C5_empty_function_call_asserts {α β : Type}
    {footprint alignment : Nat} (a : α) :
    (∀ f : Fn α β footprint alignment, f.target = none →
      f.call a = CallRes.assertFail) ∧
    (Fn.empty α β footprint alignment).call a = CallRes.assertFail ∧
    (∀ f : Fn α β footprint alignment,
      f.moveCtor.2.call a = CallRes.assertFail) ∧
    (∀ f : Fn α β footprint alignment,
      f.destroy.call a = CallRes.assertFail) ∧
    (∀ (f : Fn α β footprint alignment) (t : FnTarget α β),
      f.target = some t → f.call a = CallRes.ok (t.run a)) := by
  refine ⟨?_, rfl, ?_, fun f => rfl, ?_⟩
  · intro f hf
    rw [Fn.call, hf]
  · intro f
    rcases f with ⟨_ | t⟩ <;> rfl
  · intro f t hf
    rw [Fn.call, hf]

/-- C7: merge splices the tail of the first node's chain to the head of
the second node's chain; it is a no-op when the argument is null, when
the argument is the node itself, and when the two nodes already share a
chain head. -/
theorem C7_merge_splices_or_noop
    {s : St} {ca cb : List Nat} {rest : List (List Nat)}
    (h : Realizes s (ca :: cb :: rest)) {a b : Nat} (ha : a ∈ ca) (hb : b ∈ cb)
    {fuel : Nat} (hfa : ca.length ≤ fuel) (hfb : cb.length ≤ fuel) :
    Realizes (merge s fuel a (some b)) ((ca ++ cb) :: rest) ∧
    (∀ m, m ∉ ca → m ∉ cb → merge s fuel a (some b) m = s m) ∧
    merge s fuel a none = s ∧
    merge s fuel a (some a) = s ∧
    (∀ (c : List Nat) (rest2 : List (List Nat)) (x y : Nat),
      Realizes s (c :: rest2) → x ∈ c → y ∈ c → c.length ≤ fuel →
      merge s fuel x (some y) = s) := by
  obtain ⟨h1, h2⟩ := merge_refines h ha hb hfa hfb
  exact ⟨h1, h2, merge_none s fuel a, merge_self s fuel a,
    fun c rest2 x y hr hx hy hlen => merge_same_chain hr hx hy hlen⟩

/-- C8: every realized state has a symmetric and acyclic link relation,
and every list-manipulating operation — merge, remove, clusterize, link
and the move constructor — maps realized states to realized states;
moving a node relinks its former neighbors to the new address and leaves
the moved-from node unlinked. -/
theorem C8_operations_preserve_wellformedness :
    (∀ (s : St) (cs : List (List Nat)), Realizes s cs →
      SymLinks s cs.flatten ∧ AcyclicLinks s cs.flatten) ∧
    (∀ (s : St) (ca cb : List Nat) (rest : List (List Nat)) (a b fuel : Nat),
      Realizes s (ca :: cb :: rest) → a ∈ ca → b ∈ cb →
      ca.length ≤ fuel → cb.length ≤ fuel →
      ∃ cs2, Realizes (merge s fuel a (some b)) cs2) ∧
    (∀ (s : St) (u : List Nat) (n : Nat) (v : List Nat)
      (rest : List (List Nat)), Realizes s ((u ++ n :: v) :: rest) →
      ∃ cs2, Realizes (removeN s n) cs2) ∧
    (∀ (s : St) (c : List Nat) (rest : List (List Nat)) (n : Nat)
      (key : Nat → Nat) (N fuel : Nat), Realizes s (c :: rest) → n ∈ c →
      (∀ m ∈ c, key m < N) → c.length ≤ fuel →
      ∃ cs2, Realizes (clusterize s fuel n key N) cs2) ∧
    (∀ (s : St) (ca cb : List Nat) (rest : List (List Nat)) (a b : Nat)
      (κ : Nat → PortKind) (fuel : Nat), Realizes s (ca :: cb :: rest) →
      a ∈ ca → b ∈ cb → ca.length + cb.length ≤ fuel →
      ∃ cs2, Realizes (link s fuel a b (fun m => kindKey (κ m))) cs2) ∧
    (∀ (s : St) (u : List Nat) (src : Nat) (v : List Nat)
      (rest : List (List Nat)) (dst : Nat),
      Realizes s ((u ++ src :: v) :: rest) →
      dst ∉ (u ++ src :: v) ++ rest.flatten →
      Realizes (moveNode s src dst) ((u ++ dst :: v) :: [src] :: rest) ∧
      moveNode s src dst src = ⟨none, none⟩ ∧
      (∀ p, (s src).prev = some p →
        moveNode s src dst p = ⟨(s p).prev, some dst⟩) ∧
      (∀ q, (s src).next = some q →
        moveNode s src dst q = ⟨some dst, (s q).next⟩)) := by
  refine ⟨?_, ?_, ?_, ?_, ?_, ?_⟩
  · intro s cs h
    exact ⟨realizes_sym h, realizes_acyclic h⟩
  · intro s ca cb rest a b fuel h ha hb hfa hfb
    exact ⟨(ca ++ cb) :: rest, (merge_refines h ha hb hfa hfb).1⟩
  · intro s u n v rest h
    exact ⟨[n] :: (if u ++ v = [] then rest else (u ++ v) :: rest),
      (remove_refines h).1⟩
  · intro s c rest n key N fuel h hn hkey hf
    exact ⟨clusterizeAbs N key c :: rest, (clusterize_refines h hn key hkey hf).1⟩
  · intro s ca cb rest a b κ fuel h ha hb hf
    have hkind : ∀ m ∈ ca ++ cb, kindKey (κ m) < 2 := by
      intro m _
      cases κ m <;> simp [kindKey]
    exact ⟨clusterizeAbs 2 (fun m => kindKey (κ m)) (ca ++ cb) :: rest,
      (link_refines h ha hb (fun m => kindKey (κ m)) hkind hf).1⟩
  · intro s u src v rest dst h hfresh
    obtain ⟨h1, h2, h3, h4, _⟩ := move_refines h hfresh
    exact ⟨h1, h2, h3, h4⟩

/-- C9: Puller<T>::operator* default-constructs a value, fires the pull
chain on it, and returns it: linked to a Pullable whose stored callable
writes the constant 42 it yields 42; unlinked it yields the default
value, and this is not a failure. -/
theorem C9_puller_materialize
    (κ : Nat → PortKind) (bf : Nat → Int → Int) {fuel : Nat} :
    (∀ (s : St) (q r : Nat), dlseg s none [q, r] none →
      κ r = PortKind.behavior → (∀ x, bf r x = 42) → 1 ≤ fuel →
      materialize s fuel q κ bf 0 = 42) ∧
    (∀ (s : St) (q : Nat), s q = ⟨none, none⟩ →
      materialize s fuel q κ bf 0 = 0) := by
  constructor
  · intro s q r hd hκ hbf hfuel
    have hd2 : dlseg s none ([] ++ q :: [r]) none := by simpa using hd
    have hft : fireTrace s fuel q = [r] :=
      fireTrace_eq hd2 (by simpa using hfuel)
    rw [materialize, pullRun, hft]
    simp [triggerEff, hκ, hbf]
  · intro s q hq
    have hft : fireTrace s fuel q = [] := by
      rw [fireTrace, hq]
      cases fuel <;> rfl
    rw [materialize, pullRun, hft]
    rfl

/-- C10: linking two ports that are already members of the same topic is
idempotent: merge detects the shared chain head and does nothing, and
re-clusterizing the already-clusterized chain reproduces the same order,
so membership and node order are exactly as before. -/
theorem C10_link_idempotent_on_topic
    {s : St} {l : List Nat} {rest : List (List Nat)} (κ : Nat → PortKind)
    (h : Realizes s (clusterizeAbs 2 (fun m => kindKey (κ m)) l :: rest))
    {a b : Nat} (ha : a ∈ clusterizeAbs 2 (fun m => kindKey (κ m)) l)
    (hb : b ∈ clusterizeAbs 2 (fun m => kindKey (κ m)) l)
    {fuel : Nat}
    (hf : (clusterizeAbs 2 (fun m => kindKey (κ m)) l).length ≤ fuel) :
    Realizes (link s fuel a b (fun m => kindKey (κ m)))
      (clusterizeAbs 2 (fun m => kindKey (κ m)) l :: rest) ∧
    merge s fuel a (some b) = s ∧
    (∀ m, m ∉ clusterizeAbs 2 (fun m2 => kindKey (κ m2)) l →
      link s fuel a b (fun m2 => kindKey (κ m2)) m = s m) := by
  have hkind : ∀ m ∈ clusterizeAbs 2 (fun m2 => kindKey (κ m2)) l,
      kindKey (κ m) < 2 := by
    intro m _
    cases κ m <;> simp [kindKey]
  obtain ⟨h1, h2⟩ := link_same_chain h ha hb (fun m => kindKey (κ m)) hkind hf
  rw [clusterizeAbs_idem] at h1
  exact ⟨h1, merge_same_chain h ha hb hf, h2⟩

/-- C6: remove patches the former neighbors of a node to point at each
other, keeping the remaining nodes mutually linked in their previous
relative order, leaves the removed node unlinked, is idempotent, and
leaves firing among the remaining nodes unaffected apart from the
removed node no longer being visited. -/
theorem C6_remove_detaches_and_is_idempotent
    {s : St} {u : List Nat} {n : Nat} {v : List Nat} {rest : List (List Nat)}
    (h : Realizes s ((u ++ n :: v) :: rest)) {fuel : Nat}
    (hf : (u ++ n :: v).length ≤ fuel) :
    Realizes (removeN s n)
      ([n] :: (if u ++ v = [] then rest else (u ++ v) :: rest)) ∧
    removeN s n n = ⟨none, none⟩ ∧
    removeN (removeN s n) n = removeN s n ∧
    (∀ m, m ∉ u ++ n :: v → removeN s n m = s m) ∧
    (∀ e ∈ u ++ v, fireTrace (removeN s n) fuel e =
      (fireTrace s fuel e).filter (fun x => x ≠ n)) := by
  obtain ⟨h1, h2, h3⟩ := remove_refines h
  refine ⟨h1, h2, removeN_idem s n, h3, ?_⟩
  intro e he
  have hnd2 : ((u ++ n :: v) ++ rest.flatten).Nodup := by simpa using h.1
  have hcnd : (u ++ n :: v).Nodup := (List.nodup_append.mp hnd2).1
  have hnvnd : (n :: v).Nodup := (List.nodup_append.mp hcnd).2.1
  have hdisjunv : u.Disjoint (n :: v) := (List.nodup_append.mp hcnd).2.2
  have hnu : n ∉ u := fun hn => hdisjunv hn (List.mem_cons_self n v)
  have hnv : n ∉ v := (List.nodup_cons.mp hnvnd).1
  have hdold : dlseg s none (u ++ n :: v) none := h.2.2 _ (by simp)
  have huvne : u ++ v ≠ [] := List.ne_nil_of_mem he
  have hif : (if u ++ v = [] then rest else (u ++ v) :: rest) =
      (u ++ v) :: rest := if_neg huvne
  rw [hif] at h1
  have hdnew : dlseg (removeN s n) none (u ++ v) none := h1.2.2 _ (by simp)
  have hfnv : (n :: v).filter (fun x => x ≠ n) = v := by
    rw [List.filter_cons, if_neg (by simp)]
    exact filter_ne_of_not_mem hnv
  rcases List.mem_append.mp he with heu | hev
  · obtain ⟨p, q, hpq⟩ := List.append_of_mem heu
    have hold_eq : u ++ n :: v = p ++ e :: (q ++ n :: v) := by rw [hpq]; simp
    have hnew_eq : u ++ v = p ++ e :: (q ++ v) := by rw [hpq]; simp
    have hlen : p.length + 1 + q.length + 1 + v.length ≤ fuel := by
      rw [hpq] at hf
      simp only [List.length_append, List.length_cons] at hf
      omega
    have hold_tr : fireTrace s fuel e = q ++ n :: v :=
      fireTrace_eq (by rw [← hold_eq]; exact hdold)
        (by simp only [List.length_append, List.length_cons]; omega)
    have hnew_tr : fireTrace (removeN s n) fuel e = q ++ v :=
      fireTrace_eq (by rw [← hnew_eq]; exact hdnew)
        (by simp only [List.length_append]; omega)
    have hnq : n ∉ q := fun hq => hnu
      (by rw [hpq]; exact List.mem_append.mpr (Or.inr (List.mem_cons_of_mem e hq)))
    rw [hold_tr, hnew_tr, List.filter_append, filter_ne_of_not_mem hnq, hfnv]
  · obtain ⟨p, q, hpq⟩ := List.append_of_mem hev
    have hold_eq : u ++ n :: v = (u ++ n :: p) ++ e :: q := by rw [hpq]; simp
    have hnew_eq : u ++ v = (u ++ p) ++ e :: q := by rw [hpq]; simp
    have hlen : q.length ≤ fuel := by
      rw [hpq] at hf
      simp only [List.length_append, List.length_cons] at hf
      omega
    have hold_tr : fireTrace s fuel e = q :=
      fireTrace_eq (by rw [← hold_eq]; exact hdold) hlen
    have hnew_tr : fireTrace (removeN s n) fuel e = q :=
      fireTrace_eq (by rw [← hnew_eq]; exact hdnew) hlen
    have hnq : n ∉ q := by
      intro hq
      refine hnv ?_
      rw [hpq]
      exact List.mem_append.mpr (Or.inr (List.mem_cons_of_mem e hq))
    rw [hold_tr, hnew_tr, filter_ne_of_not_mem hnq]

/-- Witness topology for linking: Event 0 already linked to Behavior 2,
Event 1 still alone. -/
def wStA : St := fun n =>
  if n = 0 then ⟨none, some 2⟩
  else if n = 2 then ⟨some 0, none⟩
  else ⟨none, none⟩

/-- Witness kinds: node 2 is a Behavior, everything else an Event. -/
def kappaA : Nat → PortKind := fun n => if n = 2 then .behavior else .event

/-- Witness topology: the chain 5, 0, 1, 2. -/
def wStB : St := fun n =>
  if n = 5 then ⟨none, some 0⟩
  else if n = 0 then ⟨some 5, some 1⟩
  else if n = 1 then ⟨some 0, some 2⟩
  else if n = 2 then ⟨some 1, none⟩
  else ⟨none, none⟩

/-- Witness topology: the chain 0, 1, 2. -/
def wStC : St := fun n =>
  if n = 0 then ⟨none, some 1⟩
  else if n = 1 then ⟨some 0, some 2⟩
  else if n = 2 then ⟨some 1, none⟩
  else ⟨none, none⟩

/-- Witness state with every node unlinked. -/
def stUnlinked : St := fun _ => ⟨none, none⟩

/-- Witness topology for pulling: Puller 3 linked to Pullable 4. -/
def wStE : St := fun n =>
  if n = 3 then ⟨none, some 4⟩
  else if n = 4 then ⟨some 3, none⟩
  else ⟨none, none⟩

/-- Witness kinds for pulling: node 4 is the Behavior. -/
def kappaE : Nat → PortKind := fun n => if n = 4 then .behavior else .event

/-- Witness pull effects: the Pullable at node 4 writes the constant 42. -/
def bfE : Nat → Int → Int := fun n x => if n = 4 then 42 else x

/-- Witness callable target: 4 bytes, 4-aligned, computes n + 1. -/
def wTarget : FnTarget Nat Nat := ⟨4, 4, fun n => n + 1⟩

/-- Witness for C1: linking Event 0 (whose topic already holds Behavior 2)
to Event 1 puts both Events before the Behavior; firing Event 0 then
visits Event 1 before Behavior 2 even though 2 was linked first. -/
theorem C1_witness :
    Realizes (link wStA 3 0 1 (fun m => kindKey (kappaA m)))
      ((([0, 2] ++ [1]).filter (fun m => kindKey (kappaA m) = 0) ++
        ([0, 2] ++ [1]).filter (fun m => kindKey (kappaA m) = 1)) :: []) ∧
    fireTrace (link wStA 3 0 1 (fun m => kindKey (kappaA m))) 3 0 = [1, 2] :=
  ⟨(@C1_link_orders_events_before_behaviors wStA [0, 2] [1] [] (by decide) 0 1
      (by decide) (by decide) kappaA 3 (by decide)).1, by decide⟩

/-- Witness for C2: firing Event 0 in the chain 5, 0, 1, 2 calls nodes 1
and 2 once each with the same argument and skips node 5 and itself. -/
theorem C2_witness :
    broadcastCalls wStB 2 0 (7 : Nat) = [1, 2].map (fun n => (n, 7)) ∧
    (fireTrace wStB 2 0).Nodup ∧
    (∀ x ∈ [5], x ∉ fireTrace wStB 2 0) ∧
    0 ∉ fireTrace wStB 2 0 ∧
    eventTrigger (7 : Nat) = () :=
  @C2_event_fire_visits_suffix Nat wStB [5] 0 [1, 2] [] (by decide) 2
    (by decide) 7

/-- Witness for C3: clusterizing the chain 0, 1, 2 with key m % 3 into
three buckets. -/
theorem C3_witness :
    Realizes (clusterize wStC 3 0 (fun m => m % 3) 3)
      (clusterizeAbs 3 (fun m => m % 3) [0, 1, 2] :: []) ∧
    (∀ k, k < 3 → (clusterizeAbs 3 (fun m => m % 3) [0, 1, 2]).filter
      (fun m => m % 3 = k) = [0, 1, 2].filter (fun m => m % 3 = k)) ∧
    clusterizeAbs 3 (fun m => m % 3)
      (clusterizeAbs 3 (fun m => m % 3) [0, 1, 2]) =
      clusterizeAbs 3 (fun m => m % 3) [0, 1, 2] ∧
    (clusterizeAbs 3 (fun m => m % 3) [0, 1, 2] = [0, 1, 2] →
      Realizes (clusterize wStC 3 0 (fun m => m % 3) 3) ([0, 1, 2] :: [])) :=
  @C3_clusterize_stable_partition_idempotent wStC [0, 1, 2] [] (by decide) 0
    (by decide) (fun m => m % 3) 3 (by decide) 3 (by decide)

/-- Witness for C4: a 4-byte target in an 8-byte footprint computes 42
from 41, also after a move; the moved-from holder reads false. -/
theorem C4_witness :
    (Fn.construct 8 8 wTarget (by decide)).call 41 = CallRes.ok 42 ∧
    (Fn.construct 8 8 wTarget (by decide)).moveCtor.2.toBool = false ∧
    (Fn.construct 8 8 wTarget (by decide)).moveCtor.1.call 41 =
      CallRes.ok 42 :=
  C4_function_invoke_and_move 8 8 wTarget (by decide) 41

/-- Witness for C5: every empty holder asserts on invocation, and a
holder with a target runs it. -/
theorem C5_witness :
    (Fn.empty Nat Nat 8 8).call 5 = CallRes.assertFail ∧
    (Fn.empty Nat Nat 8 8).moveCtor.2.call 5 = CallRes.assertFail ∧
    (Fn.empty Nat Nat 8 8).destroy.call 5 = CallRes.assertFail ∧
    (Fn.construct 8 8 wTarget (by decide)).call 5 = CallRes.ok 6 :=
  ⟨(@C5_empty_function_call_asserts Nat Nat 8 8 5).2.1,
   (@C5_empty_function_call_asserts Nat Nat 8 8 5).2.2.1 (Fn.empty Nat Nat 8 8),
   (@C5_empty_function_call_asserts Nat Nat 8 8 5).2.2.2.1 (Fn.empty Nat Nat 8 8),
   (@C5_empty_function_call_asserts Nat Nat 8 8 5).2.2.2.2
     (Fn.construct 8 8 wTarget (by decide)) wTarget rfl⟩

/-- Witness for C6: removing node 1 from the chain 0, 1, 2. -/
theorem C6_witness :
    Realizes (removeN wStC 1)
      ([1] :: (if [0] ++ [2] = ([] : List Nat) then ([] : List (List Nat))
        else ([0] ++ [2]) :: [])) ∧
    removeN wStC 1 1 = ⟨none, none⟩ ∧
    removeN (removeN wStC 1) 1 = removeN wStC 1 ∧
    (∀ m, m ∉ [0] ++ 1 :: [2] → removeN wStC 1 m = wStC m) ∧
    (∀ e ∈ [0] ++ [2], fireTrace (removeN wStC 1) 3 e =
      (fireTrace wStC 3 e).filter (fun x => x ≠ 1)) :=
  @C6_remove_detaches_and_is_idempotent wStC [0] 1 [2] [] (by decide) 3
    (by decide)

/-- Witness for C7: merging the singleton chains of nodes 0 and 1. -/
theorem C7_witness :
    Realizes (merge stUnlinked 1 0 (some 1)) (([0] ++ [1]) :: []) ∧
    (∀ m, m ∉ [0] → m ∉ [1] → merge stUnlinked 1 0 (some 1) m =
      stUnlinked m) ∧
    merge stUnlinked 1 0 none = stUnlinked ∧
    merge stUnlinked 1 0 (some 0) = stUnlinked ∧
    (∀ (c : List Nat) (rest2 : List (List Nat)) (x y : Nat),
      Realizes stUnlinked (c :: rest2) → x ∈ c → y ∈ c → c.length ≤ 1 →
      merge stUnlinked 1 x (some y) = stUnlinked) :=
  @C7_merge_splices_or_noop stUnlinked [0] [1] [] (by decide) 0 1 (by decide)
    (by decide) 1 (by decide) (by decide)

/-- Witness for C8: the well-formedness consequences and all five
operations instantiated on concrete topologies. -/
theorem C8_witness :
    (SymLinks wStC ([[0, 1, 2]] : List (List Nat)).flatten ∧
      AcyclicLinks wStC ([[0, 1, 2]] : List (List Nat)).flatten) ∧
    (∃ cs2, Realizes (merge stUnlinked 1 0 (some 1)) cs2) ∧
    (∃ cs2, Realizes (removeN wStC 1) cs2) ∧
    (∃ cs2, Realizes (clusterize wStC 3 0 (fun m => m % 3) 3) cs2) ∧
    (∃ cs2, Realizes (link wStA 3 0 1 (fun m => kindKey (kappaA m))) cs2) ∧
    (Realizes (moveNode wStC 1 7) (([0] ++ 7 :: [2]) :: [1] :: []) ∧
      moveNode wStC 1 7 1 = ⟨none, none⟩ ∧
      (∀ p, (wStC 1).prev = some p →
        moveNode wStC 1 7 p = ⟨(wStC p).prev, some 7⟩) ∧
      (∀ q, (wStC 1).next = some q →
        moveNode wStC 1 7 q = ⟨some 7, (wStC q).next⟩)) := by
  have P := C8_operations_preserve_wellformedness
  refine ⟨P.1 wStC [[0, 1, 2]] (by decide), ?_, ?_, ?_, ?_, ?_⟩
  · exact P.2.1 stUnlinked [0] [1] [] 0 1 1 (by decide) (by decide)
      (by decide) (by decide) (by decide)
  · exact P.2.2.1 wStC [0] 1 [2] [] (by decide)
  · exact P.2.2.2.1 wStC [0, 1, 2] [] 0 (fun m => m % 3) 3 3 (by decide)
      (by decide) (by decide) (by decide)
  · exact P.2.2.2.2.1 wStA [0, 2] [1] [] 0 1 kappaA 3 (by decide) (by decide)
      (by decide) (by decide)
  · exact P.2.2.2.2.2 wStC [0] 1 [2] [] 7 (by decide) (by decide)

/-- Witness for C9: materializing through a linked constant Pullable
yields 42; materializing an unlinked Puller yields the default 0. -/
theorem C9_witness :
    materialize wStE 2 3 kappaE bfE 0 = 42 ∧
    materialize wStE 2 9 kappaE bfE 0 = 0 :=
  ⟨(@C9_puller_materialize kappaE bfE 2).1 wStE 3 4 (by decide) (by decide)
    (fun _ => rfl) (by decide),
   (@C9_puller_materialize kappaE bfE 2).2 wStE 9 rfl⟩

/-- Witness for C10: relinking Event 0 to Behavior 2 inside the already
clusterized topic 0, 1, 2 changes nothing. -/
theorem C10_witness :
    Realizes (link wStC 3 0 2 (fun m => kindKey (kappaA m)))
      (clusterizeAbs 2 (fun m => kindKey (kappaA m)) [0, 1, 2] :: []) ∧
    merge wStC 3 0 (some 2) = wStC ∧
    (∀ m, m ∉ clusterizeAbs 2 (fun m2 => kindKey (kappaA m2)) [0, 1, 2] →
      link wStC 3 0 2 (fun m2 => kindKey (kappaA m2)) m = wStC m) :=
  @C10_link_idempotent_on_topic wStC [0, 1, 2] [] kappaA (by decide) 0 2
    (by decide) (by decide) 3 (by decide)

end Ramen
